import Mathlib

/-!
Verification of the PageRank implementation (`pagerank.py`).

The Python module is shallowly embedded: Python dicts become association
lists (`List (Page × _)`) kept in insertion order, Python sets of pages
become duplicate-free `List Page`, floating-point numbers become `ℚ`,
randomness is injected as oracle arguments (the page actually drawn), and
the unbounded `while` loop of `iterate_pagerank` takes an explicit fuel
parameter, returning `none` when the fuel runs out before convergence.
-/

namespace PageRank

/-- A page identifier (a file name in the corpus). -/
abbrev Page := String

/-- A corpus: Python dict mapping each page to its set of outgoing links,
modelled as an association list in insertion order; the link set is a
duplicate-free list. -/
abbrev Corpus := List (Page × List Page)

/-- A dict mapping pages to numbers (probability distribution, visit
counters, or rank mapping). -/
abbrev Dist := List (Page × ℚ)

/-- Exceptions the Python runtime or the spec's error design can raise. -/
inductive PyErr where
  | IndexError
  | ZeroDivisionError
  | EmptyGraphError
  | InvalidParameter
  deriving DecidableEq, Repr

instance [DecidableEq ε] [DecidableEq α] : DecidableEq (Except ε α) := fun a b =>
  match a, b with
  | .error x, .error y =>
      match decEq x y with
      | isTrue h => isTrue (h ▸ rfl)
      | isFalse h => isFalse (fun hh => h (by cases hh; rfl))
  | .error _, .ok _ => isFalse (fun hh => by cases hh)
  | .ok _, .error _ => isFalse (fun hh => by cases hh)
  | .ok x, .ok y =>
      match decEq x y with
      | isTrue h => isTrue (h ▸ rfl)
      | isFalse h => isFalse (fun hh => h (by cases hh; rfl))

/-- The keys of a dict, in insertion order (`dict.keys()`). -/
def keysOf (l : List (κ × α)) : List κ := l.map Prod.fst

/-- Raw dict lookup: the value at the first entry with the given key. -/
def getEntry [DecidableEq κ] (l : List (κ × α)) (p : κ) : Option α :=
  match l with
  | [] => none
  | e :: t => if e.1 = p then some e.2 else getEntry t p

/-- `corpus[page]` for a corpus (defaults to `[]`; every use in the claims
has `page` among the keys, where the default is never taken). -/
def linksOf (c : Corpus) (p : Page) : List Page := (getEntry c p).getD []

/-- `dist[page]` for a numeric dict (defaults to `0`; every use in the
claims has `page` among the keys, where the default is never taken). -/
def valOf (r : Dist) (p : Page) : ℚ := (getEntry r p).getD 0

/-- Python dict assignment `l[p] = v`: overwrite the entry if the key is
present (keeping its position), append a new entry otherwise. -/
def dictSet [DecidableEq κ] (l : List (κ × α)) (p : κ) (v : α) : List (κ × α) :=
  if p ∈ keysOf l then l.map (fun e => if e.1 = p then (p, v) else e)
  else l ++ [(p, v)]

/-- The sum of the values of a numeric dict. -/
def sumValues (r : Dist) : ℚ := (r.map Prod.snd).sum

/-! ### `transition_model` (pagerank.py lines 53–76) -/

/-- `transition_model(corpus, page, damping_factor)`: for every page of the
corpus, probability `damping_factor / len(corpus[page]) + (1 - damping_factor) / N`
if the current page links to it, and `(1 - damping_factor) / N` otherwise.
There is no separate branch for a page without outgoing links. -/
def transition_model (corpus : Corpus) (page : Page) (damping_factor : ℚ) : Dist :=
  let N : ℚ := corpus.length
  corpus.map (fun e =>
    if e.1 ∈ linksOf corpus page then
      (e.1, damping_factor / (linksOf corpus page).length + (1 - damping_factor) / N)
    else
      (e.1, (1 - damping_factor) / N))

/-! ### `sample_pagerank` (pagerank.py lines 79–118) -/

/-- `random.choice(seq)`: raises `IndexError` on an empty sequence,
otherwise returns one of its elements; which one is decided by the
injected oracle value `pick`. -/
def randomChoice (l : List Page) (pick : Page) : Except PyErr Page :=
  if l = [] then .error .IndexError else .ok pick

/-- The sampling loop of `sample_pagerank` (lines 99–112): repeat `k`
times: build the transition model for the current page, draw the next page
(`random.choices`, modelled by the oracle `picks`), and increment its
visit counter (creating the counter at 1 on first visit). -/
def sampleLoop (corpus : Corpus) (damping_factor : ℚ) (picks : ℕ → Page) :
    ℕ → Page → Dist → Dist
  | 0, _, counts => counts
  | k + 1, current_page, counts =>
      let _trans_model := transition_model corpus current_page damping_factor
      let nxt := picks k
      let counts' :=
        if nxt ∈ keysOf counts then dictSet counts nxt (valOf counts nxt + 1)
        else dictSet counts nxt 1
      sampleLoop corpus damping_factor picks k nxt counts'

/-- The visit-counter dict built by `sample_pagerank` just before the
normalization step (lines 90–112): the start page begins with one visit
and the loop body runs `n - 1` times. -/
def sampleCounts (corpus : Corpus) (damping_factor : ℚ) (n : ℕ) (start : Page)
    (picks : ℕ → Page) : Dist :=
  sampleLoop corpus damping_factor picks (n - 1) start [(start, 1)]

/-- `sample_pagerank(corpus, damping_factor, n)`: pick a start page with
`random.choice` (IndexError on an empty corpus), run the sampling loop,
then divide every counter by `n`. The random draws are the oracle
arguments `start` and `picks`. -/
def sample_pagerank (corpus : Corpus) (damping_factor : ℚ) (n : ℕ) (start : Page)
    (picks : ℕ → Page) : Except PyErr Dist :=
  match randomChoice (keysOf corpus) start with
  | .error e => .error e
  | .ok p0 =>
      .ok ((sampleCounts corpus damping_factor n p0 picks).map
        (fun e => (e.1, e.2 / (n : ℚ))))

/-! ### `iterate_pagerank` (pagerank.py lines 121–192) -/

/-- `are_dicts_approx_equal(dict1, dict2, tolerance)` (lines 131–146):
same length, every key of the first dict present in the second, and all
value differences within the tolerance. -/
def are_dicts_approx_equal (dict1 dict2 : Dist) (tolerance : ℚ) : Bool :=
  if dict1.length ≠ dict2.length then false
  else dict1.all (fun e =>
    decide (e.1 ∈ keysOf dict2) &&
    decide (|valOf dict1 e.1 - valOf dict2 e.1| ≤ tolerance))

/-- The dangling-page fix (lines 158–161): every page whose link set is
empty is rebound, in the working copy, to the full key list. -/
def dangling_fix (corpus_copy : Corpus) : Corpus :=
  corpus_copy.map (fun e => if e.2 = [] then (e.1, keysOf corpus_copy) else e)

/-- The body of the per-page update (lines 166–181): start from
`(1 - damping_factor) / num_pages`, collect the pages linking to `page`,
and add `damping_factor * rank(q) / len(links(q))` for each of them. -/
def newRank (corpus_copy : Corpus) (damping_factor : ℚ) (num_pages : ℕ)
    (ranks : Dist) (page : Page) : ℚ :=
  let linking_pages :=
    (keysOf corpus_copy).filter (fun q => page ∈ linksOf corpus_copy q)
  linking_pages.foldl
    (fun acc q =>
      if (linksOf corpus_copy q).length ≠ 0 then
        acc + damping_factor * valOf ranks q / ((linksOf corpus_copy q).length : ℚ)
      else acc)
    ((1 - damping_factor) / (num_pages : ℚ))

/-- One iteration of the inner `for page in corpus_copy` body
(lines 165–186), acting on the pair
(`old_pagerank_values`, `pagerank_values`): compute the new rank from the
**current** (partially updated) rank dict, save the current value into the
old dict, then overwrite the rank dict in place. -/
def sweepStep (corpus_copy : Corpus) (damping_factor : ℚ) (num_pages : ℕ)
    (st : Dist × Dist) (page : Page) : Dist × Dist :=
  let new_pagerank := newRank corpus_copy damping_factor num_pages st.2 page
  (dictSet st.1 page (valOf st.2 page), dictSet st.2 page new_pagerank)

/-- One full sweep over all pages (lines 165–186). -/
def sweep (corpus_copy : Corpus) (damping_factor : ℚ) (num_pages : ℕ)
    (st : Dist × Dist) : Dist × Dist :=
  (keysOf corpus_copy).foldl (sweepStep corpus_copy damping_factor num_pages) st

/-- The `while continue_loop` loop (lines 164–190) with explicit fuel:
sweep, then stop and return `pagerank_values` as soon as old and new ranks
are approximately equal at tolerance `0.001`; `none` if the fuel is
exhausted first. -/
def iterLoop (corpus_copy : Corpus) (damping_factor : ℚ) (num_pages : ℕ) :
    ℕ → Dist × Dist → Option Dist
  | 0, _ => none
  | fuel + 1, st =>
      let st' := sweep corpus_copy damping_factor num_pages st
      if are_dicts_approx_equal st'.1 st'.2 (1 / 1000) then some st'.2
      else iterLoop corpus_copy damping_factor num_pages fuel st'

/-- `iterate_pagerank(corpus, damping_factor)` (lines 121–192): shallow
copy, dangling fix, ranks initialized to `1 / num_pages` (keys in corpus
order), `old_pagerank_values` starts as a copy, then the convergence loop.
`fuel` bounds the number of sweeps of the unbounded `while` loop. -/
def iterate_pagerank (corpus : Corpus) (damping_factor : ℚ) (fuel : ℕ) : Option Dist :=
  let corpus_copy := dangling_fix corpus
  let num_pages := corpus.length
  let pagerank_values : Dist := corpus.map (fun e => (e.1, 1 / (num_pages : ℚ)))
  let old_pagerank_values := pagerank_values
  iterLoop corpus_copy damping_factor num_pages fuel
    (old_pagerank_values, pagerank_values)

/-! ### Synchronous sweep, modelled from the spec (refinement target of C2) -/

/-- Modelled from the spec: "Replace all ranks simultaneously with
`new_rank` values computed from the *previous* iteration's full rank
mapping (synchronous update)". Every page's new rank is computed from the
single pre-sweep dict `ranks`; this is the sweep the spec describes, to be
compared with the `sweep` the code performs. -/
def syncSweepSpec (corpus_copy : Corpus) (damping_factor : ℚ) (num_pages : ℕ)
    (ranks : Dist) : Dist :=
  ranks.map (fun e => (e.1, newRank corpus_copy damping_factor num_pages ranks e.1))

/-! ### Functional view of the sweep (used to analyse convergence)

The rank dict always keeps the corpus keys, so a sweep can be studied as a
transformation of the total valuation `Page → ℚ` read off by `valOf`.
The following definitions restate `newRank`/`sweep` on that view; the
bridge lemmas below prove they compute the same values as the code. -/

/-- Pointwise update of a valuation. -/
def updF (σ : Page → ℚ) (p : Page) (v : ℚ) : Page → ℚ :=
  fun q => if q = p then v else σ q

/-- `newRank` read on a valuation instead of a dict. -/
def newRankF (corpus_copy : Corpus) (damping_factor : ℚ) (num_pages : ℕ)
    (σ : Page → ℚ) (page : Page) : ℚ :=
  ((keysOf corpus_copy).filter (fun q => page ∈ linksOf corpus_copy q)).foldl
    (fun acc q =>
      if (linksOf corpus_copy q).length ≠ 0 then
        acc + damping_factor * σ q / ((linksOf corpus_copy q).length : ℚ)
      else acc)
    ((1 - damping_factor) / (num_pages : ℚ))

/-- The in-place sweep on valuations: pages of `l` are updated in order,
each reading the partially updated valuation. -/
def sweepF (corpus_copy : Corpus) (damping_factor : ℚ) (num_pages : ℕ) :
    List Page → (Page → ℚ) → Page → ℚ
  | [], σ => σ
  | p :: l, σ =>
      sweepF corpus_copy damping_factor num_pages l
        (updF σ p (newRankF corpus_copy damping_factor num_pages σ p))

/-- The valuation after `j` full sweeps. -/
def sweepsF (corpus_copy : Corpus) (damping_factor : ℚ) (num_pages : ℕ)
    (σ0 : Page → ℚ) : ℕ → Page → ℚ
  | 0 => σ0
  | j + 1 =>
      sweepF corpus_copy damping_factor num_pages (keysOf corpus_copy)
        (sweepsF corpus_copy damping_factor num_pages σ0 j)

/-! ### Quantities for the convergence analysis (claim C8)

One sweep is in-place, so whether a link contribution uses the new or the
old rank of the linking page depends on the iteration order: page `q`
contributes its new rank to link targets processed after it and its old
rank to the others. Weighting each page by `1 - d * (fraction of its link
targets processed after it)` yields a weighted total change that shrinks
by a factor `d` every sweep. -/

/-- Number of link targets of `q` (among corpus pages) that the sweep
processes strictly after `q`. -/
def cntA (cc : Corpus) (q : Page) : ℕ :=
  ((keysOf cc).toFinset.filter
    (fun p => p ∈ linksOf cc q ∧ (keysOf cc).indexOf q < (keysOf cc).indexOf p)).card

/-- Number of link targets of `q` (among corpus pages) processed at or
before `q`. -/
def cntB (cc : Corpus) (q : Page) : ℕ :=
  ((keysOf cc).toFinset.filter
    (fun p => p ∈ linksOf cc q ∧ ¬(keysOf cc).indexOf q < (keysOf cc).indexOf p)).card

/-- The weight of page `q` in the Lyapunov functional. -/
def wgt (cc : Corpus) (d : ℚ) (q : Page) : ℚ :=
  1 - d * (cntA cc q : ℚ) / ((linksOf cc q).length : ℚ)

/-- The weighted total of a (nonnegative) per-page quantity. -/
def lyap (cc : Corpus) (d : ℚ) (δ : Page → ℚ) : ℚ :=
  ∑ q ∈ (keysOf cc).toFinset, wgt cc d q * δ q

/-- The loop's stopping condition read on a valuation: one more sweep
changes every corpus page by at most the tolerance `0.001`. -/
def StopAt (cc : Corpus) (d : ℚ) (N : ℕ) (σ : Page → ℚ) : Prop :=
  ∀ q ∈ keysOf cc, |σ q - sweepF cc d N (keysOf cc) σ q| ≤ 1 / 1000

/-! ### Reference-level model of the dangling fix (for the frame claim C10)

`corpus.copy()` is a shallow copy: the new dict holds the same references
to the same set objects. The dangling fix then rebinds some entries of the
copy to freshly allocated lists. To state that the original dict still
sees its original sets, dicts are modelled as maps to heap references. -/

/-- A heap of set/list objects addressed by numeric references; `next` is
the next fresh address. -/
structure Heap where
  entries : List (ℕ × List Page)
  next : ℕ

/-- Dereference (defaults to `[]` for an unallocated reference). -/
def Heap.get (h : Heap) (r : ℕ) : List Page := (getEntry h.entries r).getD []

/-- Allocate a new object, returning the extended heap and its address. -/
def Heap.alloc (h : Heap) (v : List Page) : Heap × ℕ :=
  (⟨h.entries ++ [(h.next, v)], h.next + 1⟩, h.next)

/-- A dict whose values live on the heap. -/
abbrev DictR := List (Page × ℕ)

/-- `h'` extends `h`: same entries plus freshly addressed ones, with a
fresh-counter at least as large. -/
def Heap.Extends (h h' : Heap) : Prop :=
  (∃ t, h'.entries = h.entries ++ t ∧ ∀ e ∈ t, h.next ≤ e.1) ∧ h.next ≤ h'.next

/-- One step of the dangling fix at the reference level (lines 159–161):
read the set bound to `page` in the working copy; if it is empty, allocate
a fresh list holding all keys of the copy and rebind `page` to it. -/
def fixStoreStep (st : Heap × DictR) (page : Page) : Heap × DictR :=
  let r := (getEntry st.2 page).getD 0
  if st.1.get r = [] then
    let a := st.1.alloc (keysOf st.2)
    (a.1, dictSet st.2 page a.2)
  else st

/-- The dangling fix of `iterate_pagerank` at the reference level
(lines 150 and 158–161): shallow-copy the dict, then walk its keys
rebinding dangling pages in the copy. Returns the final heap and the
working copy; the original dict `corpus` is never assigned to. -/
def dangling_fix_store (h : Heap) (corpus : DictR) : Heap × DictR :=
  let corpus_copy := corpus
  (keysOf corpus_copy).foldl fixStoreStep (h, corpus_copy)

/-- Read a reference-level corpus back into a plain corpus. -/
def derefCorpus (h : Heap) (dict : DictR) : Corpus :=
  dict.map (fun e => (e.1, h.get e.2))

/-! ### Concrete corpora used by the claims -/

/-- The one-page corpus `{"A": set()}` (a dangling page). -/
def oneG : Corpus := [("A", [])]

/-- The two-page corpus `{"A": {"B"}, "B": {"A"}}` of the spec's concrete
scenario. -/
def twoG : Corpus := [("A", ["B"]), ("B", ["A"])]

/-- The corpus `{"A": set(), "B": {"A"}}` of the spec's dangling-page
scenario. -/
def exG : Corpus := [("A", []), ("B", ["A"])]


/-! ### Basic dict lemmas -/

@[simp] theorem keysOf_nil : keysOf ([] : List (κ × α)) = [] := rfl

@[simp] theorem keysOf_cons (e : κ × α) (t : List (κ × α)) :
    keysOf (e :: t) = e.1 :: keysOf t := rfl

@[simp] theorem getEntry_nil [DecidableEq κ] (p : κ) :
    getEntry ([] : List (κ × α)) p = none := rfl

theorem getEntry_cons [DecidableEq κ] (e : κ × α) (t : List (κ × α)) (p : κ) :
    getEntry (e :: t) p = if e.1 = p then some e.2 else getEntry t p := rfl

theorem getEntry_eq_none [DecidableEq κ] {l : List (κ × α)} {p : κ}
    (h : p ∉ keysOf l) : getEntry l p = none := by
  induction l with
  | nil => rfl
  | cons e t ih =>
      simp only [keysOf_cons, List.mem_cons, not_or] at h
      rw [getEntry_cons, if_neg (fun he => h.1 he.symm)]
      exact ih h.2

theorem getEntry_isSome [DecidableEq κ] {l : List (κ × α)} {p : κ}
    (h : p ∈ keysOf l) : ∃ v, getEntry l p = some v := by
  induction l with
  | nil => simp at h
  | cons e t ih =>
      by_cases he : e.1 = p
      · exact ⟨e.2, by rw [getEntry_cons, if_pos he]⟩
      · simp only [keysOf_cons, List.mem_cons] at h
        rcases h with h | h
        · exact absurd h.symm he
        · obtain ⟨v, hv⟩ := ih h
          exact ⟨v, by rw [getEntry_cons, if_neg he, hv]⟩

theorem getEntry_mem [DecidableEq κ] {l : List (κ × α)} {p : κ} {v : α}
    (h : getEntry l p = some v) : (p, v) ∈ l := by
  induction l with
  | nil => simp at h
  | cons e t ih =>
      rw [getEntry_cons] at h
      by_cases he : e.1 = p
      · rw [if_pos he] at h
        injection h with hv
        exact List.mem_cons.mpr (Or.inl (by rw [← he, ← hv]))
      · rw [if_neg he] at h
        exact List.mem_cons_of_mem _ (ih h)

theorem getEntry_append_some [DecidableEq κ] {l₁ : List (κ × α)} {p : κ} {v : α}
    (l₂ : List (κ × α)) (h : getEntry l₁ p = some v) :
    getEntry (l₁ ++ l₂) p = some v := by
  induction l₁ with
  | nil => simp at h
  | cons e t ih =>
      rw [getEntry_cons] at h
      rw [List.cons_append, getEntry_cons]
      by_cases he : e.1 = p
      · rwa [if_pos he] at h ⊢
      · rw [if_neg he] at h ⊢
        exact ih h

theorem getEntry_append_none [DecidableEq κ] {l₁ : List (κ × α)} {p : κ}
    (l₂ : List (κ × α)) (h : getEntry l₁ p = none) :
    getEntry (l₁ ++ l₂) p = getEntry l₂ p := by
  induction l₁ with
  | nil => rfl
  | cons e t ih =>
      rw [getEntry_cons] at h
      by_cases he : e.1 = p
      · rw [if_pos he] at h
        exact absurd h (by simp)
      · rw [if_neg he] at h
        rw [List.cons_append, getEntry_cons, if_neg he]
        exact ih h

theorem keysOf_append (l₁ l₂ : List (κ × α)) :
    keysOf (l₁ ++ l₂) = keysOf l₁ ++ keysOf l₂ := by
  simp [keysOf]

theorem keysOf_length (l : List (κ × α)) : (keysOf l).length = l.length := by
  simp [keysOf]

/-- Reading the in-place overwrite `l.map (replace key p by v)`. -/
theorem getEntry_mapReplace [DecidableEq κ] (l : List (κ × α)) (p : κ) (v : α) (q : κ) :
    getEntry (l.map (fun e => if e.1 = p then (p, v) else e)) q =
      if q = p then (if p ∈ keysOf l then some v else none) else getEntry l q := by
  induction l with
  | nil => simp
  | cons e t ih =>
      rw [List.map_cons]
      by_cases he : e.1 = p
      · rw [if_pos he, getEntry_cons]
        by_cases hq : q = p
        · subst hq
          simp [he]
        · have hpq : ¬((p, v).1 = q) := fun hh => hq hh.symm
          rw [if_neg hpq, ih, if_neg hq, if_neg hq, getEntry_cons,
            if_neg (fun hh : e.1 = q => hq (by rw [← hh]; exact he))]
      · rw [if_neg he, getEntry_cons]
        by_cases heq : e.1 = q
        · have hq : ¬(q = p) := fun hh => he (heq.trans hh)
          rw [if_pos heq, if_neg hq, getEntry_cons, if_pos heq]
        · rw [if_neg heq, ih, getEntry_cons, if_neg heq]
          by_cases hq : q = p
          · rw [if_pos hq, if_pos hq, keysOf_cons]
            have : ¬(p = e.1) := fun hh => he hh.symm
            simp [this]
          · rw [if_neg hq, if_neg hq]

/-- Reading after a dict assignment. -/
theorem getEntry_dictSet [DecidableEq κ] (l : List (κ × α)) (p : κ) (v : α) (q : κ) :
    getEntry (dictSet l p v) q = if q = p then some v else getEntry l q := by
  unfold dictSet
  by_cases hp : p ∈ keysOf l
  · rw [if_pos hp, getEntry_mapReplace, if_pos hp]
  · rw [if_neg hp]
    by_cases hq : q = p
    · subst hq
      rw [getEntry_append_none _ (getEntry_eq_none hp), if_pos rfl, getEntry_cons,
        if_pos rfl]
    · rw [if_neg hq]
      cases hgl : getEntry l q with
      | some w => exact getEntry_append_some _ hgl
      | none =>
          rw [getEntry_append_none _ hgl, getEntry_cons,
            if_neg (fun hh : p = q => hq hh.symm)]
          rfl

theorem valOf_dictSet (l : Dist) (p : Page) (v : ℚ) (q : Page) :
    valOf (dictSet l p v) q = if q = p then v else valOf l q := by
  unfold valOf
  rw [getEntry_dictSet]
  by_cases hq : q = p <;> simp [hq]

theorem keysOf_dictSet_mem [DecidableEq κ] {l : List (κ × α)} {p : κ} (v : α)
    (hp : p ∈ keysOf l) : keysOf (dictSet l p v) = keysOf l := by
  unfold dictSet
  rw [if_pos hp]
  unfold keysOf
  rw [List.map_map]
  refine List.map_congr_left (fun e _ => ?_)
  by_cases he : e.1 = p <;> simp [he]

theorem keysOf_dictSet_not_mem [DecidableEq κ] {l : List (κ × α)} {p : κ} (v : α)
    (hp : p ∉ keysOf l) : keysOf (dictSet l p v) = keysOf l ++ [p] := by
  unfold dictSet
  rw [if_neg hp, keysOf_append]
  rfl

/-- Looking up a dict whose values are a function of the key. -/
theorem getEntry_map_keyFun [DecidableEq κ] (l : List (κ × α)) (f : κ → β) (q : κ)
    (hq : q ∈ keysOf l) :
    getEntry (l.map (fun e => (e.1, f e.1))) q = some (f q) := by
  induction l with
  | nil => simp at hq
  | cons e t ih =>
      rw [List.map_cons, getEntry_cons]
      by_cases he : e.1 = q
      · rw [show ((e.1, f e.1) : κ × β).1 = e.1 from rfl, if_pos he, he]
      · rw [show ((e.1, f e.1) : κ × β).1 = e.1 from rfl, if_neg he]
        simp only [keysOf_cons, List.mem_cons] at hq
        rcases hq with hq | hq
        · exact absurd hq.symm he
        · exact ih hq

/-- Looking up a dict whose values were transformed entrywise. -/
theorem getEntry_map_valFun [DecidableEq κ] (l : List (κ × α)) (f : α → β) (q : κ) :
    getEntry (l.map (fun e => (e.1, f e.2))) q = (getEntry l q).map f := by
  induction l with
  | nil => rfl
  | cons e t ih =>
      rw [List.map_cons, getEntry_cons, getEntry_cons]
      by_cases he : e.1 = q
      · rw [show ((e.1, f e.2) : κ × β).1 = e.1 from rfl, if_pos he, if_pos he]
        rfl
      · rw [show ((e.1, f e.2) : κ × β).1 = e.1 from rfl, if_neg he, if_neg he, ih]

theorem keysOf_map_keyFun (l : List (κ × α)) (f : κ → β) :
    keysOf (l.map (fun e => (e.1, f e.1))) = keysOf l := by
  unfold keysOf
  rw [List.map_map]
  rfl

theorem keysOf_map_valFun (l : List (κ × α)) (f : α → β) :
    keysOf (l.map (fun e => (e.1, f e.2))) = keysOf l := by
  unfold keysOf
  rw [List.map_map]
  rfl

/-! ### Corpus-level lemmas -/

theorem keysOf_eq_nil_iff (l : List (κ × α)) : keysOf l = [] ↔ l = [] := by
  unfold keysOf
  exact List.map_eq_nil_iff

theorem keysOf_dangling_fix (c : Corpus) : keysOf (dangling_fix c) = keysOf c := by
  unfold dangling_fix keysOf
  rw [List.map_map]
  refine List.map_congr_left (fun e _ => ?_)
  by_cases he : e.2 = [] <;> simp [he]

theorem dangling_fix_eq_map_valFun (c : Corpus) :
    dangling_fix c = c.map (fun e => (e.1, if e.2 = [] then keysOf c else e.2)) := by
  unfold dangling_fix
  refine List.map_congr_left (fun e _ => ?_)
  by_cases he : e.2 = [] <;> simp [he]

theorem linksOf_dangling_fix (c : Corpus) (q : Page) (hq : q ∈ keysOf c) :
    linksOf (dangling_fix c) q =
      if linksOf c q = [] then keysOf c else linksOf c q := by
  obtain ⟨v, hv⟩ := getEntry_isSome hq
  rw [dangling_fix_eq_map_valFun]
  unfold linksOf
  rw [getEntry_map_valFun c (fun v => if v = [] then keysOf c else v) q, hv]
  rfl

theorem linksOf_dangling_fix_ne_nil (c : Corpus) (hc : c ≠ []) (q : Page)
    (hq : q ∈ keysOf c) : linksOf (dangling_fix c) q ≠ [] := by
  rw [linksOf_dangling_fix c q hq]
  by_cases h : linksOf c q = []
  · rw [if_pos h]
    intro hk
    exact hc ((keysOf_eq_nil_iff c).mp hk)
  · rwa [if_neg h]

theorem transition_model_eq_map (corpus : Corpus) (page : Page) (d : ℚ) :
    transition_model corpus page d =
      corpus.map (fun e =>
        (e.1,
          if e.1 ∈ linksOf corpus page then
            d / ((linksOf corpus page).length : ℚ) + (1 - d) / (corpus.length : ℚ)
          else (1 - d) / (corpus.length : ℚ))) := by
  show corpus.map _ = corpus.map _
  refine List.map_congr_left (fun e _ => ?_)
  by_cases he : e.1 ∈ linksOf corpus page <;> simp [he]

theorem keysOf_transition_model (corpus : Corpus) (page : Page) (d : ℚ) :
    keysOf (transition_model corpus page d) = keysOf corpus := by
  rw [transition_model_eq_map]
  exact keysOf_map_keyFun corpus
    (fun p =>
      if p ∈ linksOf corpus page then
        d / ((linksOf corpus page).length : ℚ) + (1 - d) / (corpus.length : ℚ)
      else (1 - d) / (corpus.length : ℚ))

theorem valOf_transition_model (corpus : Corpus) (page : Page) (d : ℚ) (q : Page)
    (hq : q ∈ keysOf corpus) :
    valOf (transition_model corpus page d) q =
      if q ∈ linksOf corpus page then
        d / ((linksOf corpus page).length : ℚ) + (1 - d) / (corpus.length : ℚ)
      else (1 - d) / (corpus.length : ℚ) := by
  rw [transition_model_eq_map]
  unfold valOf
  rw [getEntry_map_keyFun corpus
    (fun p =>
      if p ∈ linksOf corpus page then
        d / ((linksOf corpus page).length : ℚ) + (1 - d) / (corpus.length : ℚ)
      else (1 - d) / (corpus.length : ℚ)) q hq]
  rfl

/-! ### Sweep structure lemmas -/

/-- `newRank` only reads the rank dict through `valOf`. -/
theorem newRank_eq_newRankF (cc : Corpus) (d : ℚ) (N : ℕ) (ranks : Dist) (page : Page) :
    newRank cc d N ranks page = newRankF cc d N (valOf ranks) page := rfl

/-- The ranks seen after part of a sweep are the functional sweep of the
ranks seen before it. -/
theorem foldl_sweepStep_valOf (cc : Corpus) (d : ℚ) (N : ℕ) (l : List Page)
    (st : Dist × Dist) (q : Page) :
    valOf (l.foldl (sweepStep cc d N) st).2 q = sweepF cc d N l (valOf st.2) q := by
  induction l generalizing st with
  | nil => rfl
  | cons p t ih =>
      rw [List.foldl_cons, ih]
      show sweepF cc d N t (valOf (sweepStep cc d N st p).2) q = _
      have hσ : valOf (sweepStep cc d N st p).2 =
          updF (valOf st.2) p (newRankF cc d N (valOf st.2) p) := by
        funext x
        show valOf (dictSet st.2 p (newRank cc d N st.2 p)) x = _
        rw [valOf_dictSet, newRank_eq_newRankF]
        rfl
      rw [hσ]
      rfl

/-- Pages outside the processed list keep their rank. -/
theorem sweepF_not_mem (cc : Corpus) (d : ℚ) (N : ℕ) (l : List Page) (σ : Page → ℚ)
    (q : Page) (hq : q ∉ l) : sweepF cc d N l σ q = σ q := by
  induction l generalizing σ with
  | nil => rfl
  | cons p t ih =>
      have hqp : q ≠ p := fun h => hq (h ▸ List.mem_cons_self p t)
      have hqt : q ∉ t := fun h => hq (List.mem_cons_of_mem p h)
      show sweepF cc d N t _ q = σ q
      rw [ih _ hqt]
      exact if_neg hqp

theorem sweepF_append (cc : Corpus) (d : ℚ) (N : ℕ) (l₁ l₂ : List Page) (σ : Page → ℚ) :
    sweepF cc d N (l₁ ++ l₂) σ = sweepF cc d N l₂ (sweepF cc d N l₁ σ) := by
  induction l₁ generalizing σ with
  | nil => rfl
  | cons p t ih =>
      show sweepF cc d N (t ++ l₂) _ = _
      rw [ih]
      rfl

/-- The value a sweep gives to `p`: `newRank` read on the state in which
exactly the pages before `p` have already been updated. -/
theorem sweepF_value (cc : Corpus) (d : ℚ) (N : ℕ) (l₁ l₂ : List Page) (p : Page)
    (σ : Page → ℚ) (hnd : (l₁ ++ p :: l₂).Nodup) :
    sweepF cc d N (l₁ ++ p :: l₂) σ p =
      newRankF cc d N (sweepF cc d N l₁ σ) p := by
  rw [sweepF_append]
  have hp2 : p ∉ l₂ := by
    have := List.Nodup.of_append_right hnd
    exact (List.nodup_cons.mp this).1
  show sweepF cc d N l₂ _ p = _
  rw [sweepF_not_mem cc d N l₂ _ p hp2]
  exact if_pos rfl

/-- Pages before the split point already hold their final sweep value. -/
theorem sweepF_prefix_value (cc : Corpus) (d : ℚ) (N : ℕ) (l₁ l₂ : List Page)
    (σ : Page → ℚ) (q : Page) (hq : q ∉ l₂) :
    sweepF cc d N (l₁ ++ l₂) σ q = sweepF cc d N l₁ σ q := by
  rw [sweepF_append]
  exact sweepF_not_mem cc d N l₂ _ q hq

/-- The old-values dict after part of a sweep: pages already processed
hold their pre-sweep rank, the rest are untouched. -/
theorem foldl_sweepStep_old_valOf (cc : Corpus) (d : ℚ) (N : ℕ) (l : List Page)
    (hl : l.Nodup) (st : Dist × Dist) (q : Page) :
    valOf (l.foldl (sweepStep cc d N) st).1 q =
      if q ∈ l then valOf st.2 q else valOf st.1 q := by
  induction l generalizing st with
  | nil => simp
  | cons p t ih =>
      obtain ⟨hpt, hnd⟩ := List.nodup_cons.mp hl
      rw [List.foldl_cons, ih hnd]
      by_cases hqt : q ∈ t
      · have hqp : q ≠ p := fun h => hpt (h ▸ hqt)
        rw [if_pos hqt, if_pos (List.mem_cons_of_mem p hqt)]
        show valOf (dictSet st.2 p _) q = valOf st.2 q
        rw [valOf_dictSet, if_neg hqp]
      · rw [if_neg hqt]
        show valOf (dictSet st.1 p (valOf st.2 p)) q = _
        rw [valOf_dictSet]
        by_cases hqp : q = p
        · rw [if_pos hqp, if_pos (hqp ▸ List.mem_cons_self p t), hqp]
        · rw [if_neg hqp, if_neg (fun h => (List.mem_cons.mp h).elim hqp hqt)]

/-- A sweep fold preserves the keys of both dicts as long as every
processed page already is a key. -/
theorem foldl_sweepStep_keys (cc : Corpus) (d : ℚ) (N : ℕ) (l : List Page)
    (st : Dist × Dist) (h1 : ∀ p ∈ l, p ∈ keysOf st.1) (h2 : ∀ p ∈ l, p ∈ keysOf st.2) :
    keysOf (l.foldl (sweepStep cc d N) st).1 = keysOf st.1 ∧
      keysOf (l.foldl (sweepStep cc d N) st).2 = keysOf st.2 := by
  induction l generalizing st with
  | nil => exact ⟨rfl, rfl⟩
  | cons p t ih =>
      have hk1 : keysOf (sweepStep cc d N st p).1 = keysOf st.1 :=
        keysOf_dictSet_mem _ (h1 p (List.mem_cons_self p t))
      have hk2 : keysOf (sweepStep cc d N st p).2 = keysOf st.2 :=
        keysOf_dictSet_mem _ (h2 p (List.mem_cons_self p t))
      rw [List.foldl_cons]
      have := ih (sweepStep cc d N st p)
        (fun x hx => hk1 ▸ h1 x (List.mem_cons_of_mem p hx))
        (fun x hx => hk2 ▸ h2 x (List.mem_cons_of_mem p hx))
      rw [this.1, this.2, hk1, hk2]
      exact ⟨rfl, rfl⟩

/-! ### Loop-level lemmas -/

/-- A successful run of the convergence loop returns a dict with the same
keys as the initial rank dict. -/
theorem iterLoop_some_keys (cc : Corpus) (d : ℚ) (N : ℕ) (fuel : ℕ)
    (st : Dist × Dist) (res : Dist)
    (h1 : ∀ p ∈ keysOf cc, p ∈ keysOf st.1) (h2 : ∀ p ∈ keysOf cc, p ∈ keysOf st.2)
    (h : iterLoop cc d N fuel st = some res) : keysOf res = keysOf st.2 := by
  induction fuel generalizing st with
  | zero => exact absurd h (by simp [iterLoop])
  | succ fuel ih =>
      rw [iterLoop] at h
      have hkeys := foldl_sweepStep_keys cc d N (keysOf cc) st h1 h2
      by_cases hc :
          are_dicts_approx_equal (sweep cc d N st).1 (sweep cc d N st).2 (1 / 1000) = true
      · rw [if_pos hc] at h
        injection h with h
        rw [← h]
        exact hkeys.2
      · rw [if_neg hc] at h
        have := ih (sweep cc d N st)
          (fun p hp => (hkeys.1).symm ▸ h1 p hp)
          (fun p hp => (hkeys.2).symm ▸ h2 p hp) h
        rw [this]
        exact hkeys.2

/-! ### Sum and membership lemmas for dict assignment -/

theorem sumValues_append (l₁ l₂ : Dist) :
    sumValues (l₁ ++ l₂) = sumValues l₁ + sumValues l₂ := by
  unfold sumValues
  rw [List.map_append, List.sum_append]

theorem sumValues_dictSet_not_mem (l : Dist) (p : Page) (v : ℚ)
    (hp : p ∉ keysOf l) : sumValues (dictSet l p v) = sumValues l + v := by
  unfold dictSet
  rw [if_neg hp, sumValues_append]
  show _ = _ + v
  unfold sumValues
  simp

theorem sumValues_dictSet_mem (l : Dist) (p : Page) (v : ℚ)
    (hnd : (keysOf l).Nodup) (hp : p ∈ keysOf l) :
    sumValues (dictSet l p v) = sumValues l - valOf l p + v := by
  induction l with
  | nil => simp at hp
  | cons e t ih =>
      obtain ⟨het, hndt⟩ := List.nodup_cons.mp (by simpa using hnd)
      unfold dictSet
      rw [if_pos hp, List.map_cons]
      by_cases he : e.1 = p
      · have hpt : p ∉ keysOf t := he ▸ het
        have hmap : t.map (fun e => if e.1 = p then (p, v) else e) = t := by
          conv_rhs => rw [← List.map_id t]
          refine List.map_congr_left (fun x hx => ?_)
          have : x.1 ≠ p := fun hh => hpt (hh ▸ List.mem_map_of_mem Prod.fst hx)
          rw [if_neg this]
          rfl
        rw [if_pos he, hmap]
        have hval : valOf (e :: t) p = e.2 := by
          unfold valOf
          rw [getEntry_cons, if_pos he]
          rfl
        unfold sumValues
        rw [hval]
        show v + (t.map Prod.snd).sum = e.2 + (t.map Prod.snd).sum - e.2 + v
        ring
      · have hpt : p ∈ keysOf t := by
          rcases List.mem_cons.mp (by simpa using hp) with h | h
          · exact absurd h.symm he
          · exact h
        have hval : valOf (e :: t) p = valOf t p := by
          unfold valOf
          rw [getEntry_cons, if_neg he]
        have hih := ih hndt hpt
        unfold dictSet at hih
        rw [if_pos hpt] at hih
        rw [if_neg he, hval]
        show sumValues ((e :: ·) (t.map _)) = _
        unfold sumValues at hih ⊢
        simp only [List.map_cons, List.sum_cons] at hih ⊢
        rw [hih]
        ring

theorem mem_dictSet (l : Dist) (p : Page) (v : ℚ) (e : Page × ℚ)
    (he : e ∈ dictSet l p v) : e ∈ l ∨ e = (p, v) := by
  unfold dictSet at he
  by_cases hp : p ∈ keysOf l
  · rw [if_pos hp] at he
    obtain ⟨x, hx, hfx⟩ := List.mem_map.mp he
    by_cases hxp : x.1 = p
    · rw [if_pos hxp] at hfx
      exact Or.inr hfx.symm
    · rw [if_neg hxp] at hfx
      exact Or.inl (hfx ▸ hx)
  · rw [if_neg hp] at he
    rcases List.mem_append.mp he with h | h
    · exact Or.inl h
    · exact Or.inr (List.mem_singleton.mp h)

theorem valOf_mem_of_key (l : Dist) (p : Page) (hp : p ∈ keysOf l) :
    (p, valOf l p) ∈ l := by
  obtain ⟨v, hv⟩ := getEntry_isSome hp
  have : valOf l p = v := by rw [valOf, hv]; rfl
  rw [this]
  exact getEntry_mem hv

/-! ### Sampling loop invariants -/

/-- Invariants of the sampling loop: keys stay duplicate-free, the total
count grows by exactly one per step, counters stay at least 1, and every
key is either an initial key or a drawn page. -/
theorem sampleLoop_props (corpus : Corpus) (d : ℚ) (picks : ℕ → Page) (k : ℕ)
    (cur : Page) (counts : Dist) (hnd : (keysOf counts).Nodup) :
    (keysOf (sampleLoop corpus d picks k cur counts)).Nodup ∧
      sumValues (sampleLoop corpus d picks k cur counts) = sumValues counts + k ∧
      ((∀ e ∈ counts, 1 ≤ e.2) → ∀ e ∈ sampleLoop corpus d picks k cur counts, 1 ≤ e.2) ∧
      (∀ q ∈ keysOf (sampleLoop corpus d picks k cur counts),
        q ∈ keysOf counts ∨ ∃ j, q = picks j) := by
  induction k generalizing cur counts with
  | zero =>
      refine ⟨hnd, by simp [sampleLoop], fun h e he => h e he, fun q hq => Or.inl hq⟩
  | succ k ih =>
      rw [sampleLoop]
      by_cases hmem : picks k ∈ keysOf counts
      · rw [if_pos hmem]
        set counts' := dictSet counts (picks k) (valOf counts (picks k) + 1) with hc'
        have hkeys' : keysOf counts' = keysOf counts := keysOf_dictSet_mem _ hmem
        have hnd' : (keysOf counts').Nodup := hkeys' ▸ hnd
        obtain ⟨ia, ib, ic, id'⟩ := ih (picks k) counts' hnd'
        refine ⟨ia, ?_, ?_, ?_⟩
        · rw [ib, sumValues_dictSet_mem counts _ _ hnd hmem]
          push_cast
          ring
        · intro h e he
          refine ic ?_ e he
          intro e' he'
          rcases mem_dictSet _ _ _ _ he' with h1 | h1
          · exact h e' h1
          · rw [h1]
            have : 1 ≤ valOf counts (picks k) :=
              h _ (valOf_mem_of_key counts (picks k) hmem)
            show (1 : ℚ) ≤ valOf counts (picks k) + 1
            linarith
        · intro q hq
          rcases id' q hq with h1 | h1
          · exact Or.inl (hkeys' ▸ h1)
          · exact Or.inr h1
      · rw [if_neg hmem]
        set counts' := dictSet counts (picks k) 1 with hc'
        have hkeys' : keysOf counts' = keysOf counts ++ [picks k] :=
          keysOf_dictSet_not_mem _ hmem
        have hnd' : (keysOf counts').Nodup := by
          rw [hkeys']
          exact List.Nodup.append hnd (List.nodup_singleton _)
            (fun a ha hb => hmem ((List.mem_singleton.mp hb) ▸ ha))
        obtain ⟨ia, ib, ic, id'⟩ := ih (picks k) counts' hnd'
        refine ⟨ia, ?_, ?_, ?_⟩
        · rw [ib, sumValues_dictSet_not_mem counts _ _ hmem]
          push_cast
          ring
        · intro h e he
          refine ic ?_ e he
          intro e' he'
          rcases mem_dictSet _ _ _ _ he' with h1 | h1
          · exact h e' h1
          · rw [h1]
        · intro q hq
          rcases id' q hq with h1 | h1
          · rw [hkeys'] at h1
            rcases List.mem_append.mp h1 with h2 | h2
            · exact Or.inl h2
            · exact Or.inr ⟨k, List.mem_singleton.mp h2⟩
          · exact Or.inr h1

/-- Keys present before the sampling loop are still present afterwards. -/
theorem sampleLoop_keys_grow (corpus : Corpus) (d : ℚ) (picks : ℕ → Page) (k : ℕ)
    (cur : Page) (counts : Dist) :
    ∀ q ∈ keysOf counts, q ∈ keysOf (sampleLoop corpus d picks k cur counts) := by
  induction k generalizing cur counts with
  | zero => exact fun q hq => hq
  | succ k ih =>
      intro q hq
      rw [sampleLoop]
      by_cases hmem : picks k ∈ keysOf counts
      · rw [if_pos hmem]
        exact ih (picks k) _ q ((keysOf_dictSet_mem _ hmem).symm ▸ hq)
      · rw [if_neg hmem]
        refine ih (picks k) _ q ?_
        rw [keysOf_dictSet_not_mem _ hmem]
        exact List.mem_append.mpr (Or.inl hq)

/-- Unfolding the loop when the convergence test succeeds. -/
theorem iterLoop_stop (cc : Corpus) (d : ℚ) (N : ℕ) (fuel : ℕ) (st : Dist × Dist)
    (h : are_dicts_approx_equal (sweep cc d N st).1 (sweep cc d N st).2 (1 / 1000) = true) :
    iterLoop cc d N (fuel + 1) st = some (sweep cc d N st).2 := by
  rw [iterLoop]
  exact if_pos h

/-- Unfolding the loop when the convergence test fails. -/
theorem iterLoop_go (cc : Corpus) (d : ℚ) (N : ℕ) (fuel : ℕ) (st : Dist × Dist)
    (h : ¬are_dicts_approx_equal (sweep cc d N st).1 (sweep cc d N st).2 (1 / 1000) = true) :
    iterLoop cc d N (fuel + 1) st = iterLoop cc d N fuel (sweep cc d N st) := by
  rw [iterLoop]
  exact if_neg h

/-! ## Claim theorems -/

/-- Claim C2 (amended): the sweep of `iterate_pagerank` updates ranks in
place (Gauss–Seidel): the new rank of a page `p` is `newRank` read on the
state in which exactly the pages iterated before `p` have already been
given their new ranks — not on the pre-sweep mapping. -/
theorem c2_sweep_updates_in_place (cc : Corpus) (d : ℚ) (N : ℕ) (old cur : Dist)
    (l₁ l₂ : List Page) (p : Page)
    (hks : keysOf cc = l₁ ++ p :: l₂) (hnd : (keysOf cc).Nodup) :
    valOf (sweep cc d N (old, cur)).2 p =
      newRank cc d N (l₁.foldl (sweepStep cc d N) (old, cur)).2 p := by
  unfold sweep
  rw [hks, List.foldl_append, List.foldl_cons]
  have hp2 : p ∉ l₂ :=
    (List.nodup_cons.mp (List.Nodup.of_append_right (hks ▸ hnd))).1
  have h1 : valOf (l₂.foldl (sweepStep cc d N)
        (sweepStep cc d N (l₁.foldl (sweepStep cc d N) (old, cur)) p)).2 p =
      valOf (sweepStep cc d N (l₁.foldl (sweepStep cc d N) (old, cur)) p).2 p := by
    rw [foldl_sweepStep_valOf, sweepF_not_mem _ _ _ _ _ _ hp2]
  rw [h1]
  show valOf (dictSet _ p (newRank cc d N _ p)) p = _
  rw [valOf_dictSet, if_pos rfl]

/-- Claim C3 (amended): `iterate_pagerank` returns a mapping keyed by
exactly the corpus pages; `sample_pagerank` returns a mapping keyed by the
pages actually visited — a non-empty subset of the corpus pages that
contains the start page, but not necessarily all pages. -/
theorem c3_result_keys :
    (∀ (corpus : Corpus) (d : ℚ) (fuel : ℕ) (res : Dist),
      iterate_pagerank corpus d fuel = some res → keysOf res = keysOf corpus) ∧
    (∀ (corpus : Corpus) (d : ℚ) (n : ℕ) (start : Page) (picks : ℕ → Page) (res : Dist),
      start ∈ keysOf corpus → (∀ j, picks j ∈ keysOf corpus) →
      sample_pagerank corpus d n start picks = .ok res →
      res ≠ [] ∧ start ∈ keysOf res ∧ ∀ q ∈ keysOf res, q ∈ keysOf corpus) := by
  constructor
  · intro corpus d fuel res h
    have hinit : keysOf (corpus.map (fun e => (e.1, 1 / ((corpus.length : ℕ) : ℚ)))) =
        keysOf corpus :=
      keysOf_map_keyFun corpus (fun _ => 1 / ((corpus.length : ℕ) : ℚ))
    have h' : iterLoop (dangling_fix corpus) d corpus.length fuel
        (corpus.map (fun e => (e.1, 1 / ((corpus.length : ℕ) : ℚ))),
         corpus.map (fun e => (e.1, 1 / ((corpus.length : ℕ) : ℚ)))) = some res := h
    have hk := iterLoop_some_keys (dangling_fix corpus) d corpus.length fuel
      (corpus.map (fun e => (e.1, 1 / ((corpus.length : ℕ) : ℚ))),
       corpus.map (fun e => (e.1, 1 / ((corpus.length : ℕ) : ℚ)))) res
      (fun p hp => by
        show p ∈ keysOf (corpus.map (fun e => (e.1, 1 / ((corpus.length : ℕ) : ℚ))))
        rw [hinit]
        exact (keysOf_dangling_fix corpus) ▸ hp)
      (fun p hp => by
        show p ∈ keysOf (corpus.map (fun e => (e.1, 1 / ((corpus.length : ℕ) : ℚ))))
        rw [hinit]
        exact (keysOf_dangling_fix corpus) ▸ hp) h'
    exact hk.trans hinit
  · intro corpus d n start picks res hstart hpicks h
    have hne : keysOf corpus ≠ [] := List.ne_nil_of_mem hstart
    have hres : res = (sampleCounts corpus d n start picks).map
        (fun e => (e.1, e.2 / (n : ℚ))) := by
      unfold sample_pagerank randomChoice at h
      rw [if_neg hne] at h
      injection h with h
      exact h.symm
    have hkeys : keysOf res = keysOf (sampleCounts corpus d n start picks) := by
      rw [hres]
      exact keysOf_map_valFun (sampleCounts corpus d n start picks) (fun v => v / (n : ℚ))
    have hnd0 : (keysOf [((start : Page), (1 : ℚ))]).Nodup := List.nodup_singleton _
    have hprops := sampleLoop_props corpus d picks (n - 1) start [(start, 1)] hnd0
    have hgrow := sampleLoop_keys_grow corpus d picks (n - 1) start [(start, 1)]
    have hstart_mem : start ∈ keysOf res := by
      rw [hkeys]
      exact hgrow start (by simp)
    refine ⟨?_, hstart_mem, ?_⟩
    · intro hnil
      rw [hnil] at hstart_mem
      simp at hstart_mem
    · intro q hq
      rw [hkeys] at hq
      rcases hprops.2.2.2 q hq with h1 | h1
      · have : q = start := by simpa using h1
        exact this ▸ hstart
      · obtain ⟨j, hj⟩ := h1
        exact hj ▸ hpicks j

/-- Claim C4: for a key page with a non-empty link set `L`,
`transition_model` assigns `damping * (1/|L|) + (1-damping)/N` to pages in
`L` and `(1-damping)/N` to the others. -/
theorem c4_transition_model_formula (corpus : Corpus) (page : Page) (d : ℚ) (q : Page)
    (_hpage : page ∈ keysOf corpus) (_hL : linksOf corpus page ≠ [])
    (_hLnd : (linksOf corpus page).Nodup) (hq : q ∈ keysOf corpus) :
    valOf (transition_model corpus page d) q =
      if q ∈ linksOf corpus page then
        d * (1 / ((linksOf corpus page).length : ℚ)) + (1 - d) / (corpus.length : ℚ)
      else (1 - d) / (corpus.length : ℚ) := by
  rw [valOf_transition_model corpus page d q hq]
  by_cases h : q ∈ linksOf corpus page
  · rw [if_pos h, if_pos h, mul_one_div]
  · rw [if_neg h, if_neg h]

section ConcreteEvaluations

/- Rational arithmetic in Batteries is `irreducible`; make it reducible in
this section so that concrete runs of the embedded functions can be
checked by `decide`. -/
set_option allowUnsafeReducibility true
attribute [local semireducible] Rat.mul Rat.add Rat.inv Rat.sub

/-- Claim C1 (the code violates it): on the corpus `{"A": set()}` whose one
page has no outgoing links, `transition_model` with damping `0.85` returns
`{"A": 0.15}` — one entry per page, but the values sum to `0.15 = 1 - 0.85`,
not to `1` (not even within `1e-9`), because the code has no branch for an
empty link set. -/
theorem c1_transition_model_dangling_eval :
    transition_model oneG "A" (17 / 20) = [("A", 3 / 20)] ∧
      sumValues (transition_model oneG "A" (17 / 20)) = 3 / 20 ∧
      ¬(|sumValues (transition_model oneG "A" (17 / 20)) - 1| ≤ 1 / 1000000000) := by
  refine ⟨by decide, by decide, by decide⟩

/-- Claim C2 (counterexample): on the corpus `{"A": set(), "B": {"A"}}`
with damping `0.85` and all ranks at `1/2`, the code's sweep gives page `B`
the rank `0.3778125`, computed from `A`'s already-updated new rank, while
the spec's synchronous sweep gives `B` the rank `0.2875`; the sweep is not
synchronous. -/
theorem c2_counterexample :
    (sweep (dangling_fix exG) (17 / 20) 2
        ([("A", 1 / 2), ("B", 1 / 2)], [("A", 1 / 2), ("B", 1 / 2)])).2 =
      [("A", 57 / 80), ("B", 1209 / 3200)] ∧
      syncSweepSpec (dangling_fix exG) (17 / 20) 2 [("A", 1 / 2), ("B", 1 / 2)] =
        [("A", 57 / 80), ("B", 23 / 80)] ∧
      (1209 / 3200 : ℚ) ≠ 23 / 80 := by
  refine ⟨by decide, by decide, by decide⟩

/-- Witness for C2 (amended), at the corpus `{"A": set(), "B": {"A"}}`:
the sweep's value at `"B"` is `newRank` read on the state after page `"A"`
was already updated. -/
theorem c2_witness :
    (keysOf (dangling_fix exG) = ["A"] ++ "B" :: [] ∧
      (keysOf (dangling_fix exG)).Nodup) ∧
    valOf (sweep (dangling_fix exG) (17 / 20) 2
        ([("A", 1 / 2), ("B", 1 / 2)], [("A", 1 / 2), ("B", 1 / 2)])).2 "B" =
      newRank (dangling_fix exG) (17 / 20) 2
        ((["A"].foldl (sweepStep (dangling_fix exG) (17 / 20) 2)
          ([("A", 1 / 2), ("B", 1 / 2)], [("A", 1 / 2), ("B", 1 / 2)]))).2 "B" :=
  ⟨⟨by decide, by decide⟩,
    c2_sweep_updates_in_place (dangling_fix exG) (17 / 20) 2
      [("A", 1 / 2), ("B", 1 / 2)] [("A", 1 / 2), ("B", 1 / 2)]
      ["A"] [] "B" (by decide) (by decide)⟩

/-- Claim C3 (counterexample): with `n = 1` on the two-page corpus
`{"A": {"B"}, "B": {"A"}}`, `sample_pagerank` returns `{"A": 1.0}` — the
page `"B"` of the corpus is missing from the keys. -/
theorem c3_counterexample :
    sample_pagerank twoG (17 / 20) 1 "A" (fun _ => "A") = .ok [("A", 1)] ∧
      keysOf ([("A", (1 : ℚ))] : Dist) ≠ keysOf twoG := by
  refine ⟨by decide, by decide⟩

/-- Witness for C3 (amended), instantiating both halves on the two-page
corpus `{"A": {"B"}, "B": {"A"}}`. -/
theorem c3_witness :
    keysOf ([("A", (1 : ℚ) / 2), ("B", (1 : ℚ) / 2)] : Dist) = keysOf twoG ∧
    (([("A", (1 : ℚ))] : Dist) ≠ [] ∧ "A" ∈ keysOf ([("A", (1 : ℚ))] : Dist) ∧
      ∀ q ∈ keysOf ([("A", (1 : ℚ))] : Dist), q ∈ keysOf twoG) :=
  ⟨c3_result_keys.1 twoG (17 / 20) 1 [("A", 1 / 2), ("B", 1 / 2)] (by decide),
    c3_result_keys.2 twoG (17 / 20) 1 "A" (fun _ => "A") [("A", 1)] (by decide)
      (fun _ => (by decide : ("A" : Page) ∈ keysOf twoG)) (by decide)⟩

/-- Witness for C4, at the two-page corpus, source page `"A"`, target
`"B"`, damping `0.85`. -/
theorem c4_witness :
    ("A" ∈ keysOf twoG ∧ linksOf twoG "A" ≠ [] ∧ (linksOf twoG "A").Nodup ∧
      "B" ∈ keysOf twoG) ∧
    valOf (transition_model twoG "A" (17 / 20)) "B" =
      (if "B" ∈ linksOf twoG "A" then
        (17 / 20 : ℚ) * (1 / ((linksOf twoG "A").length : ℚ)) +
          (1 - 17 / 20) / (twoG.length : ℚ)
      else (1 - 17 / 20 : ℚ) / (twoG.length : ℚ)) :=
  ⟨⟨by decide, by decide, by decide, by decide⟩,
    c4_transition_model_formula twoG "A" (17 / 20) "B" (by decide) (by decide)
      (by decide) (by decide)⟩

/-- Claim C5 (amended): on a graph with zero pages neither estimator
rejects the call with an explicit guard: `sample_pagerank` fails with the
incidental `IndexError` that `random.choice` raises on an empty sequence,
and `iterate_pagerank` runs its loop (which converges immediately on zero
pages) and returns the empty mapping without any error. -/
theorem c5_empty_graph_behavior (d : ℚ) (n : ℕ) (start : Page) (picks : ℕ → Page)
    (fuel : ℕ) :
    sample_pagerank [] d n start picks = .error .IndexError ∧
      iterate_pagerank [] d (fuel + 1) = some [] := by
  constructor
  · rfl
  · have h := iterLoop_stop (dangling_fix []) d (List.length ([] : Corpus)) fuel
      (([] : Corpus).map (fun e => (e.1, 1 / ((List.length ([] : Corpus) : ℕ) : ℚ))),
       ([] : Corpus).map (fun e => (e.1, 1 / ((List.length ([] : Corpus) : ℕ) : ℚ))))
      rfl
    exact h

/-- Claim C5 (counterexample): concretely, `iterate_pagerank` on the empty
corpus returns a value (the empty mapping) rather than rejecting, and
`sample_pagerank` raises `IndexError`, not an `EmptyGraphError`. -/
theorem c5_counterexample :
    iterate_pagerank ([] : Corpus) (17 / 20) 1 = some [] ∧
      sample_pagerank ([] : Corpus) (17 / 20) 10 "A" (fun _ => "A") =
        .error .IndexError ∧
      PyErr.IndexError ≠ PyErr.EmptyGraphError := by
  refine ⟨by decide, by decide, by decide⟩

/-- Claim C6 (amended): no function validates the damping factor; for
**every** rational damping factor `d`, including all values outside
`(0, 1)`, `transition_model`, `sample_pagerank` and `iterate_pagerank` all
run to completion on the one-page corpus `{"A": set()}` and return
results. -/
theorem c6_no_damping_validation (d : ℚ) (picks : ℕ → Page) (fuel : ℕ) :
    transition_model oneG "A" d = [("A", 1 - d)] ∧
      sample_pagerank oneG d 1 "A" picks = .ok [("A", 1)] ∧
      iterate_pagerank oneG d (fuel + 1) = some [("A", 1)] := by
  refine ⟨?_, ?_, ?_⟩
  · simp [transition_model, oneG, linksOf, getEntry, keysOf]
  · simp [sample_pagerank, randomChoice, sampleCounts, sampleLoop, oneG, keysOf]
  · have hsw : sweep (dangling_fix oneG) d oneG.length
        (oneG.map (fun e => (e.1, 1 / (oneG.length : ℚ))),
         oneG.map (fun e => (e.1, 1 / (oneG.length : ℚ)))) = ([("A", 1)], [("A", 1)]) := by
      simp [sweep, sweepStep, newRank, dangling_fix, oneG, keysOf, linksOf, getEntry, valOf,
        dictSet]
    have h := iterLoop_stop (dangling_fix oneG) d oneG.length fuel
      (oneG.map (fun e => (e.1, 1 / (oneG.length : ℚ))),
       oneG.map (fun e => (e.1, 1 / (oneG.length : ℚ)))) (by rw [hsw]; decide)
    calc iterate_pagerank oneG d (fuel + 1)
        = iterLoop (dangling_fix oneG) d oneG.length (fuel + 1)
            (oneG.map (fun e => (e.1, 1 / (oneG.length : ℚ))),
             oneG.map (fun e => (e.1, 1 / (oneG.length : ℚ)))) := rfl
      _ = some (sweep (dangling_fix oneG) d oneG.length
            (oneG.map (fun e => (e.1, 1 / (oneG.length : ℚ))),
             oneG.map (fun e => (e.1, 1 / (oneG.length : ℚ))))).2 := h
      _ = some [("A", 1)] := by rw [hsw]

/-- Claim C6 (counterexample): with the invalid damping factor `2`, all
three functions compute results instead of rejecting the call —
`transition_model` even returns the negative "probability" `-1`. -/
theorem c6_counterexample :
    transition_model oneG "A" 2 = [("A", -1)] ∧
      sample_pagerank oneG 2 1 "A" (fun _ => "A") = .ok [("A", 1)] ∧
      iterate_pagerank twoG 2 1 = some [("A", 1 / 2), ("B", 1 / 2)] ∧
      ¬((0 : ℚ) ≤ -1) := by
  refine ⟨by decide, by decide, by decide, by decide⟩

/-- Claim C9: on the corpus `{"A": {"B"}, "B": {"A"}}` with damping `0.85`,
`iterate_pagerank` converges (its very first sweep already passes the
tolerance check, for any amount of remaining fuel) to exactly
`{"A": 0.5, "B": 0.5}`. -/
theorem c9_two_page_convergence (fuel : ℕ) :
    iterate_pagerank twoG (17 / 20) (fuel + 1) = some [("A", 1 / 2), ("B", 1 / 2)] := by
  have h := iterLoop_stop (dangling_fix twoG) (17 / 20) twoG.length fuel
    (twoG.map (fun e => (e.1, 1 / (twoG.length : ℚ))),
     twoG.map (fun e => (e.1, 1 / (twoG.length : ℚ)))) (by decide)
  calc iterate_pagerank twoG (17 / 20) (fuel + 1)
      = iterLoop (dangling_fix twoG) (17 / 20) twoG.length (fuel + 1)
          (twoG.map (fun e => (e.1, 1 / (twoG.length : ℚ))),
           twoG.map (fun e => (e.1, 1 / (twoG.length : ℚ)))) := rfl
    _ = some (sweep (dangling_fix twoG) (17 / 20) twoG.length
          (twoG.map (fun e => (e.1, 1 / (twoG.length : ℚ))),
           twoG.map (fun e => (e.1, 1 / (twoG.length : ℚ))))).2 := h
    _ = some [("A", 1 / 2), ("B", 1 / 2)] := by decide

/-- Claim C7 (counterexample): on the corpus `{"A": set(), "B": {"A"}}`
with damping `0.85`, the loop converges after 13 sweeps, but the returned
ranks sum to about `1.00504` — off from `1` by five times the `0.001`
tolerance, because the in-place sweep does not preserve the total mass. -/
theorem c7_counterexample :
    (iterate_pagerank exG (17 / 20) 13).map sumValues =
      some (221010748706288193912007408267584176049 /
        219902325555200000000000000000000000000) ∧
      ¬(|(221010748706288193912007408267584176049 /
          219902325555200000000000000000000000000 : ℚ) - 1| ≤ 1 / 1000) := by
  refine ⟨by decide, by decide⟩

end ConcreteEvaluations

/-! ## The dangling fix does not mutate the original graph (C10) -/

theorem extends_self (h : Heap) : h.Extends h :=
  ⟨⟨[], (List.append_nil _).symm, by simp⟩, le_refl _⟩

theorem extends_trans {h1 h2 h3 : Heap} (a : h1.Extends h2) (b : h2.Extends h3) :
    h1.Extends h3 := by
  obtain ⟨⟨t1, he1, hf1⟩, hn1⟩ := a
  obtain ⟨⟨t2, he2, hf2⟩, hn2⟩ := b
  refine ⟨⟨t1 ++ t2, ?_, ?_⟩, le_trans hn1 hn2⟩
  · rw [he2, he1, List.append_assoc]
  · intro e he
    rcases List.mem_append.mp he with h | h
    · exact hf1 e h
    · exact le_trans hn1 (hf2 e h)

/-- Each step of the reference-level dangling fix only allocates fresh
objects; existing heap entries are untouched. -/
theorem fixStoreStep_extends (st : Heap × DictR) (page : Page) :
    st.1.Extends (fixStoreStep st page).1 := by
  unfold fixStoreStep
  by_cases hempty : st.1.get ((getEntry st.2 page).getD 0) = []
  · rw [if_pos hempty]
    exact ⟨⟨[(st.1.next, keysOf st.2)], rfl, by simp⟩, Nat.le_succ _⟩
  · rw [if_neg hempty]
    exact extends_self st.1

theorem foldl_fixStoreStep_extends (l : List Page) (st : Heap × DictR) :
    st.1.Extends ((l.foldl fixStoreStep st).1) := by
  induction l generalizing st with
  | nil => exact extends_self st.1
  | cons p t ih =>
      rw [List.foldl_cons]
      exact extends_trans (fixStoreStep_extends st p) (ih (fixStoreStep st p))

/-- Dereferencing an old address is unaffected by a heap extension. -/
theorem get_of_extends {h h' : Heap} (hx : h.Extends h') (r : ℕ) (hr : r < h.next) :
    h'.get r = h.get r := by
  obtain ⟨⟨t, he, hfresh⟩, _⟩ := hx
  unfold Heap.get
  rw [he]
  cases hgl : getEntry h.entries r with
  | some v => rw [getEntry_append_some t hgl]
  | none =>
      have hnone : getEntry t r = none := by
        refine getEntry_eq_none (fun hmem => ?_)
        obtain ⟨e, het, her⟩ := List.mem_map.mp hmem
        exact absurd (her ▸ hfresh e het) (Nat.not_le.mpr hr)
      rw [getEntry_append_none t hgl, hnone]

/-- Claim C10: `iterate_pagerank` leaves its input graph unchanged. The
only statements of `iterate_pagerank` that touch the graph are the shallow
copy (line 150) and the dangling fix on that copy (lines 158–161) — all
later lines only read `corpus_copy` and write the separate rank dicts. At
the reference level, the dangling fix rebinds dangling entries of the
working copy to freshly allocated lists, so after it runs, every page of
the original dict still dereferences to its original set of outgoing
links. -/
theorem c10_dangling_fix_preserves_input (h : Heap) (corpus : DictR)
    (href : ∀ e ∈ corpus, e.2 < h.next) :
    ∀ p ∈ keysOf corpus,
      (dangling_fix_store h corpus).1.get ((getEntry corpus p).getD 0) =
        h.get ((getEntry corpus p).getD 0) := by
  intro p hp
  obtain ⟨r, hr⟩ := getEntry_isSome hp
  have hrlt : r < h.next := href (p, r) (getEntry_mem hr)
  have hx : h.Extends (dangling_fix_store h corpus).1 :=
    foldl_fixStoreStep_extends (keysOf corpus) (h, corpus)
  rw [hr]
  exact get_of_extends hx r hrlt

section ConcreteStoreWitness

/-- Witness for C10: a two-page heap-backed corpus modelling
`{"A": set(), "B": {"A"}}`; after the reference-level dangling fix, both
original bindings dereference to their original sets. -/
theorem c10_witness :
    (∀ e ∈ ([("A", 0), ("B", 1)] : DictR), e.2 < (Heap.mk [(0, []), (1, ["A"])] 2).next) ∧
    (dangling_fix_store (Heap.mk [(0, []), (1, ["A"])] 2) [("A", 0), ("B", 1)]).1.get
        ((getEntry ([("A", 0), ("B", 1)] : DictR) "A").getD 0) =
      (Heap.mk [(0, []), (1, ["A"])] 2).get
        ((getEntry ([("A", 0), ("B", 1)] : DictR) "A").getD 0) :=
  ⟨by decide,
    c10_dangling_fix_preserves_input (Heap.mk [(0, []), (1, ["A"])] 2)
      [("A", 0), ("B", 1)] (by decide) "A" (by decide)⟩

end ConcreteStoreWitness

/-! ## Positivity and sum facts for the estimators (C7) -/

/-- Turning the guarded accumulation of `newRank` into a sum. -/
theorem foldl_guard_add (l : List Page) (c : Page → Prop) [DecidablePred c]
    (g : Page → ℚ) (b : ℚ) :
    l.foldl (fun acc q => if c q then acc + g q else acc) b =
      b + (l.map (fun q => if c q then g q else 0)).sum := by
  induction l generalizing b with
  | nil => simp
  | cons p t ih =>
      rw [List.foldl_cons, List.map_cons, List.sum_cons]
      by_cases h : c p
      · rw [if_pos h, if_pos h, ih]
        ring
      · rw [if_neg h, if_neg h, ih]
        ring

/-- `newRank` on a valuation, written as base plus a sum of link
contributions. -/
theorem newRankF_eq_base_add_sum (cc : Corpus) (d : ℚ) (N : ℕ) (σ : Page → ℚ)
    (p : Page) :
    newRankF cc d N σ p = (1 - d) / (N : ℚ) +
      (((keysOf cc).filter (fun q => p ∈ linksOf cc q)).map
        (fun q =>
          if (linksOf cc q).length ≠ 0 then
            d * σ q / ((linksOf cc q).length : ℚ)
          else 0)).sum := by
  unfold newRankF
  exact foldl_guard_add _ (fun q => (linksOf cc q).length ≠ 0)
    (fun q => d * σ q / ((linksOf cc q).length : ℚ)) _

/-- With a damping factor in `[0, 1]` and nonnegative ranks, every new
rank is at least `(1 - d) / N`. -/
theorem newRankF_ge_base (cc : Corpus) (d : ℚ) (N : ℕ) (σ : Page → ℚ) (p : Page)
    (hd0 : 0 ≤ d) (hσ : ∀ q ∈ keysOf cc, 0 ≤ σ q) :
    (1 - d) / (N : ℚ) ≤ newRankF cc d N σ p := by
  rw [newRankF_eq_base_add_sum]
  have hsum : (0 : ℚ) ≤ (((keysOf cc).filter (fun q => p ∈ linksOf cc q)).map
      (fun q =>
        if (linksOf cc q).length ≠ 0 then
          d * σ q / ((linksOf cc q).length : ℚ)
        else 0)).sum := by
    refine List.sum_nonneg (fun x hx => ?_)
    obtain ⟨q, hq, hxq⟩ := List.mem_map.mp hx
    have hqkeys : q ∈ keysOf cc := List.mem_of_mem_filter hq
    rw [← hxq]
    by_cases hlen : (linksOf cc q).length ≠ 0
    · rw [if_pos hlen]
      have h1 : (0 : ℚ) ≤ d * σ q := mul_nonneg hd0 (hσ q hqkeys)
      have h2 : (0 : ℚ) ≤ ((linksOf cc q).length : ℚ) := Nat.cast_nonneg _
      exact div_nonneg h1 h2
    · rw [if_neg hlen]
  linarith

/-- A sweep keeps nonnegativity of the ranks of corpus pages, and gives
every processed page a rank of at least `(1 - d) / N`. -/
theorem sweepF_preserves_nonneg (cc : Corpus) (d : ℚ) (N : ℕ) (l : List Page)
    (σ : Page → ℚ) (hd0 : 0 ≤ d) (hd1 : d ≤ 1)
    (hσ : ∀ q ∈ keysOf cc, 0 ≤ σ q) :
    (∀ q ∈ keysOf cc, 0 ≤ sweepF cc d N l σ q) ∧
      (∀ q ∈ l, (1 - d) / (N : ℚ) ≤ sweepF cc d N l σ q) := by
  have hbase : (0 : ℚ) ≤ (1 - d) / (N : ℚ) :=
    div_nonneg (by linarith) (Nat.cast_nonneg _)
  induction l generalizing σ with
  | nil => exact ⟨hσ, by simp⟩
  | cons p t ih =>
      have hσ' : ∀ q ∈ keysOf cc, 0 ≤ updF σ p (newRankF cc d N σ p) q := by
        intro q hq
        unfold updF
        by_cases hqp : q = p
        · rw [if_pos hqp]
          exact le_trans hbase (newRankF_ge_base cc d N σ p hd0 hσ)
        · rw [if_neg hqp]
          exact hσ q hq
      obtain ⟨ha, hb⟩ := ih (updF σ p (newRankF cc d N σ p)) hσ'
      refine ⟨ha, ?_⟩
      intro q hq
      by_cases hqt : q ∈ t
      · exact hb q hqt
      · have hqp : q = p := by
          rcases List.mem_cons.mp hq with h | h
          · exact h
          · exact absurd h hqt
        show (1 - d) / (N : ℚ) ≤ sweepF cc d N t (updF σ p (newRankF cc d N σ p)) q
        rw [sweepF_not_mem cc d N t _ q hqt, hqp]
        unfold updF
        rw [if_pos rfl]
        exact newRankF_ge_base cc d N σ p hd0 hσ

/-- A successful run of the convergence loop gives every corpus page a
rank of at least `(1 - d) / N`. -/
theorem iterLoop_some_lower (cc : Corpus) (d : ℚ) (N : ℕ) (fuel : ℕ)
    (st : Dist × Dist) (res : Dist) (hd0 : 0 ≤ d) (hd1 : d ≤ 1)
    (hσ : ∀ q ∈ keysOf cc, 0 ≤ valOf st.2 q)
    (h : iterLoop cc d N fuel st = some res) :
    ∀ p ∈ keysOf cc, (1 - d) / (N : ℚ) ≤ valOf res p := by
  induction fuel generalizing st with
  | zero => exact absurd h (by simp [iterLoop])
  | succ fuel ih =>
      rw [iterLoop] at h
      have hval : ∀ q, valOf (sweep cc d N st).2 q =
          sweepF cc d N (keysOf cc) (valOf st.2) q :=
        fun q => foldl_sweepStep_valOf cc d N (keysOf cc) st q
      have hsw := sweepF_preserves_nonneg cc d N (keysOf cc) (valOf st.2) hd0 hd1 hσ
      by_cases hc : are_dicts_approx_equal (sweep cc d N st).1 (sweep cc d N st).2
          (1 / 1000) = true
      · rw [if_pos hc] at h
        injection h with h
        intro p hp
        rw [← h, hval p]
        exact hsw.2 p hp
      · rw [if_neg hc] at h
        refine ih (sweep cc d N st) ?_ h
        intro q hq
        rw [hval q]
        exact hsw.1 q hq

/-- Entry values are bounded by the total when all values are
nonnegative. -/
theorem single_le_sumValues (l : Dist) (hpos : ∀ e ∈ l, (0 : ℚ) ≤ e.2)
    (e : Page × ℚ) (he : e ∈ l) : e.2 ≤ sumValues l := by
  induction l with
  | nil => simp at he
  | cons x t ih =>
      unfold sumValues
      rw [List.map_cons, List.sum_cons]
      rcases List.mem_cons.mp he with h | h
      · have : (0 : ℚ) ≤ (t.map Prod.snd).sum :=
          List.sum_nonneg (fun v hv => by
            obtain ⟨e', he', hv'⟩ := List.mem_map.mp hv
            exact hv' ▸ hpos e' (List.mem_cons_of_mem x he'))
        rw [h]
        linarith
      · have := ih (fun e' he' => hpos e' (List.mem_cons_of_mem x he')) h
        have hx : (0 : ℚ) ≤ x.2 := hpos x (List.mem_cons_self x t)
        unfold sumValues at this
        linarith

/-- Dividing every value of a dict divides its sum. -/
theorem sumValues_map_div (l : Dist) (n : ℚ) :
    sumValues (l.map (fun e => (e.1, e.2 / n))) = sumValues l / n := by
  induction l with
  | nil => simp [sumValues]
  | cons e t ih =>
      unfold sumValues at ih ⊢
      rw [List.map_cons, List.map_cons, List.sum_cons, List.map_cons, List.sum_cons, ih]
      ring

/-- Claim C7 (amended): the visit counters of `sample_pagerank` total
exactly `n` before the division, and its returned values lie in `[0, 1]`
and sum exactly to `1`. For `iterate_pagerank` the returned ranks are all
positive — each at least `(1 - damping) / N` — but (as the counterexample
shows) their sum need not be within the `0.001` tolerance of `1`. -/
theorem c7_rank_mapping_properties :
    (∀ (corpus : Corpus) (d : ℚ) (n : ℕ) (start : Page) (picks : ℕ → Page),
      1 ≤ n → sumValues (sampleCounts corpus d n start picks) = (n : ℚ)) ∧
    (∀ (corpus : Corpus) (d : ℚ) (n : ℕ) (start : Page) (picks : ℕ → Page) (res : Dist),
      1 ≤ n → start ∈ keysOf corpus →
      sample_pagerank corpus d n start picks = .ok res →
      sumValues res = 1 ∧ ∀ e ∈ res, 0 ≤ e.2 ∧ e.2 ≤ 1) ∧
    (∀ (corpus : Corpus) (d : ℚ) (fuel : ℕ) (res : Dist),
      corpus ≠ [] → 0 < d → d < 1 →
      iterate_pagerank corpus d fuel = some res →
      ∀ p ∈ keysOf res,
        (1 - d) / (corpus.length : ℚ) ≤ valOf res p ∧ 0 < valOf res p) := by
  have counts_sum : ∀ (corpus : Corpus) (d : ℚ) (n : ℕ) (start : Page)
      (picks : ℕ → Page), 1 ≤ n →
      sumValues (sampleCounts corpus d n start picks) = (n : ℚ) := by
    intro corpus d n start picks hn
    have h := (sampleLoop_props corpus d picks (n - 1) start [(start, 1)]
      (List.nodup_singleton _)).2.1
    unfold sampleCounts
    rw [h]
    have h1 : sumValues [((start : Page), (1 : ℚ))] = 1 := by
      simp [sumValues]
    rw [h1, Nat.cast_sub hn, Nat.cast_one]
    ring
  refine ⟨counts_sum, ?_, ?_⟩
  · intro corpus d n start picks res hn hstart h
    have hne : keysOf corpus ≠ [] := List.ne_nil_of_mem hstart
    have hres : res = (sampleCounts corpus d n start picks).map
        (fun e => (e.1, e.2 / (n : ℚ))) := by
      unfold sample_pagerank randomChoice at h
      rw [if_neg hne] at h
      injection h with h
      exact h.symm
    have hprops := sampleLoop_props corpus d picks (n - 1) start [(start, 1)]
      (List.nodup_singleton _)
    have hge1 : ∀ e ∈ sampleCounts corpus d n start picks, (1 : ℚ) ≤ e.2 := by
      refine hprops.2.2.1 ?_
      intro e he
      have : e = ((start : Page), (1 : ℚ)) := List.mem_singleton.mp he
      rw [this]
    have hpos : ∀ e ∈ sampleCounts corpus d n start picks, (0 : ℚ) ≤ e.2 :=
      fun e he => le_trans zero_le_one (hge1 e he)
    have hnQ : (0 : ℚ) < (n : ℚ) := by
      have : (0 : ℕ) < n := hn
      exact_mod_cast this
    constructor
    · rw [hres, sumValues_map_div, counts_sum corpus d n start picks hn]
      exact div_self (ne_of_gt hnQ)
    · intro e he
      rw [hres] at he
      obtain ⟨e', he', hee⟩ := List.mem_map.mp he
      have h1 : (1 : ℚ) ≤ e'.2 := hge1 e' he'
      have h2 : e'.2 ≤ (n : ℚ) := by
        have := single_le_sumValues (sampleCounts corpus d n start picks) hpos e' he'
        rwa [counts_sum corpus d n start picks hn] at this
      constructor
      · rw [← hee]
        show (0 : ℚ) ≤ e'.2 / (n : ℚ)
        positivity
      · rw [← hee]
        show e'.2 / (n : ℚ) ≤ 1
        rw [div_le_one hnQ]
        exact h2
  · intro corpus d fuel res hcorp hd0 hd1 h
    have h' : iterLoop (dangling_fix corpus) d corpus.length fuel
        (corpus.map (fun e => (e.1, 1 / ((corpus.length : ℕ) : ℚ))),
         corpus.map (fun e => (e.1, 1 / ((corpus.length : ℕ) : ℚ)))) = some res := h
    have hinitkeys : keysOf (corpus.map (fun e => (e.1, 1 / ((corpus.length : ℕ) : ℚ)))) =
        keysOf corpus :=
      keysOf_map_keyFun corpus (fun _ => 1 / ((corpus.length : ℕ) : ℚ))
    have hinitval : ∀ q ∈ keysOf corpus,
        valOf (corpus.map (fun e => (e.1, 1 / ((corpus.length : ℕ) : ℚ)))) q =
          1 / ((corpus.length : ℕ) : ℚ) := by
      intro q hq
      unfold valOf
      rw [getEntry_map_keyFun corpus (fun _ => 1 / ((corpus.length : ℕ) : ℚ)) q hq]
      rfl
    have hreskeys : keysOf res = keysOf corpus := by
      have hk := iterLoop_some_keys (dangling_fix corpus) d corpus.length fuel
        (corpus.map (fun e => (e.1, 1 / ((corpus.length : ℕ) : ℚ))),
         corpus.map (fun e => (e.1, 1 / ((corpus.length : ℕ) : ℚ)))) res
        (fun p hp => by
          show p ∈ keysOf (corpus.map (fun e => (e.1, 1 / ((corpus.length : ℕ) : ℚ))))
          rw [hinitkeys]
          exact (keysOf_dangling_fix corpus) ▸ hp)
        (fun p hp => by
          show p ∈ keysOf (corpus.map (fun e => (e.1, 1 / ((corpus.length : ℕ) : ℚ))))
          rw [hinitkeys]
          exact (keysOf_dangling_fix corpus) ▸ hp) h'
      exact hk.trans hinitkeys
    have hlow := iterLoop_some_lower (dangling_fix corpus) d corpus.length fuel
      (corpus.map (fun e => (e.1, 1 / ((corpus.length : ℕ) : ℚ))),
       corpus.map (fun e => (e.1, 1 / ((corpus.length : ℕ) : ℚ)))) res
      (le_of_lt hd0) (le_of_lt hd1)
      (fun q hq => by
        show (0 : ℚ) ≤ valOf (corpus.map (fun e => (e.1, 1 / ((corpus.length : ℕ) : ℚ)))) q
        rw [hinitval q ((keysOf_dangling_fix corpus) ▸ hq)]
        positivity) h'
    intro p hp
    have hpc : p ∈ keysOf corpus := hreskeys ▸ hp
    have hbase := hlow p ((keysOf_dangling_fix corpus).symm ▸ hpc)
    have hNpos : (0 : ℚ) < (corpus.length : ℚ) := by
      have : 0 < corpus.length := List.length_pos.mpr hcorp
      exact_mod_cast this
    have hbasepos : (0 : ℚ) < (1 - d) / (corpus.length : ℚ) :=
      div_pos (by linarith) hNpos
    exact ⟨hbase, lt_of_lt_of_le hbasepos hbase⟩

section ConcreteC7Witness

set_option allowUnsafeReducibility true
attribute [local semireducible] Rat.mul Rat.add Rat.inv Rat.sub

/-- Witness for C7 (amended): a three-step sampling run on the two-page
corpus and a converged iteration on the same corpus. -/
theorem c7_witness :
    ((1 : ℕ) ≤ 3 ∧ sumValues (sampleCounts twoG (17 / 20) 3 "A" (fun _ => "B")) =
      ((3 : ℕ) : ℚ)) ∧
    (sumValues [("A", (1 : ℚ) / 3), ("B", (2 : ℚ) / 3)] = 1 ∧
      ∀ e ∈ ([("A", (1 : ℚ) / 3), ("B", (2 : ℚ) / 3)] : Dist), 0 ≤ e.2 ∧ e.2 ≤ 1) ∧
    (∀ p ∈ keysOf ([("A", (1 : ℚ) / 2), ("B", (1 : ℚ) / 2)] : Dist),
      (1 - 17 / 20 : ℚ) / (twoG.length : ℚ) ≤
          valOf [("A", (1 : ℚ) / 2), ("B", (1 : ℚ) / 2)] p ∧
        0 < valOf [("A", (1 : ℚ) / 2), ("B", (1 : ℚ) / 2)] p) :=
  ⟨⟨by norm_num,
      c7_rank_mapping_properties.1 twoG (17 / 20) 3 "A" (fun _ => "B") (by norm_num)⟩,
    c7_rank_mapping_properties.2.1 twoG (17 / 20) 3 "A" (fun _ => "B")
      [("A", 1 / 3), ("B", 2 / 3)] (by norm_num) (by decide) (by decide),
    c7_rank_mapping_properties.2.2 twoG (17 / 20) 1 [("A", 1 / 2), ("B", 1 / 2)]
      (by decide) (by norm_num) (by norm_num) (by decide)⟩

end ConcreteC7Witness

/-! ## Termination of the convergence loop (C8) -/

/-- Filtering before mapping equals mapping a guarded function. -/
theorem filter_map_sum_eq (l : List Page) (c : Page → Bool) (g : Page → ℚ) :
    ((l.filter c).map g).sum = (l.map (fun q => if c q then g q else 0)).sum := by
  induction l with
  | nil => rfl
  | cons p t ih =>
      rw [List.filter_cons, List.map_cons, List.sum_cons]
      by_cases h : c p
      · rw [if_pos h, if_pos h, List.map_cons, List.sum_cons, ih]
      · rw [if_neg h, if_neg h, ih, zero_add]

/-- In a duplicate-free split `l₁ ++ p :: l₂`, membership in the prefix is
exactly having a smaller index than `p`. -/
theorem mem_prefix_iff_indexOf (l₁ l₂ : List Page) (p q : Page)
    (hnd : (l₁ ++ p :: l₂).Nodup) (hq : q ∈ l₁ ++ p :: l₂) :
    q ∈ l₁ ↔ (l₁ ++ p :: l₂).indexOf q < (l₁ ++ p :: l₂).indexOf p := by
  have hdisj : List.Disjoint l₁ (p :: l₂) := List.disjoint_of_nodup_append hnd
  have hpl₁ : p ∉ l₁ := fun hmem => hdisj hmem (List.mem_cons_self p l₂)
  have hidxp : (l₁ ++ p :: l₂).indexOf p = l₁.length := by
    rw [List.indexOf_append_of_not_mem hpl₁, List.indexOf_cons_self, Nat.add_zero]
  constructor
  · intro h
    rw [hidxp, List.indexOf_append_of_mem h]
    exact List.indexOf_lt_length.mpr h
  · intro h
    by_contra hql₁
    rw [hidxp, List.indexOf_append_of_not_mem hql₁] at h
    omega

/-- `newRankF` as a sum over all corpus pages with an in-link indicator. -/
theorem newRankF_eq_indicator_sum (cc : Corpus) (d : ℚ) (N : ℕ)
    (hnd : (keysOf cc).Nodup) (σ : Page → ℚ) (p : Page) :
    newRankF cc d N σ p = (1 - d) / (N : ℚ) +
      ∑ q ∈ (keysOf cc).toFinset,
        (if p ∈ linksOf cc q then
          (if (linksOf cc q).length ≠ 0 then
            d * σ q / ((linksOf cc q).length : ℚ)
          else 0)
        else 0) := by
  rw [newRankF_eq_base_add_sum]
  congr 1
  rw [List.sum_toFinset _ hnd]
  rw [filter_map_sum_eq]
  simp only [decide_eq_true_eq]

/-- Between two consecutive sweeps, the change of page `p` is bounded by
`d` times a mix of the changes of the pages linking to it: a linking page
processed before `p` contributes its change from the later sweep, the
others contribute their change from the earlier sweep. -/
theorem sweep_diff_bound (cc : Corpus) (d : ℚ) (N : ℕ)
    (hnd : (keysOf cc).Nodup)
    (hm : ∀ q ∈ keysOf cc, (linksOf cc q).length ≠ 0) (hd0 : 0 ≤ d)
    (x y z : Page → ℚ)
    (hy : y = sweepF cc d N (keysOf cc) x) (hz : z = sweepF cc d N (keysOf cc) y)
    (p : Page) (hp : p ∈ keysOf cc) :
    |z p - y p| ≤
      ∑ q ∈ (keysOf cc).toFinset,
        (if p ∈ linksOf cc q then
          d * (if (keysOf cc).indexOf q < (keysOf cc).indexOf p then |z q - y q|
            else |y q - x q|) / ((linksOf cc q).length : ℚ)
        else 0) := by
  obtain ⟨l₁, l₂, hps⟩ := List.append_of_mem hp
  have hnd' : (l₁ ++ p :: l₂).Nodup := hps ▸ hnd
  have hyp : y p = newRankF cc d N (sweepF cc d N l₁ x) p := by
    rw [hy, hps]
    exact sweepF_value cc d N l₁ l₂ p x hnd'
  have hzp : z p = newRankF cc d N (sweepF cc d N l₁ y) p := by
    rw [hz, hps]
    exact sweepF_value cc d N l₁ l₂ p y hnd'
  rw [hyp, hzp, newRankF_eq_indicator_sum cc d N hnd (sweepF cc d N l₁ y) p,
    newRankF_eq_indicator_sum cc d N hnd (sweepF cc d N l₁ x) p,
    add_sub_add_left_eq_sub, ← Finset.sum_sub_distrib]
  refine le_trans (Finset.abs_sum_le_sum_abs _ _) (Finset.sum_le_sum (fun q hq => ?_))
  have hqk : q ∈ keysOf cc := List.mem_toFinset.mp hq
  by_cases hlink : p ∈ linksOf cc q
  · simp only [hlink, hm q hqk, ne_eq, not_false_eq_true, if_true]
    have hmpos : (0 : ℚ) < ((linksOf cc q).length : ℚ) := by
      have : 0 < (linksOf cc q).length := Nat.pos_of_ne_zero (hm q hqk)
      exact_mod_cast this
    rw [div_sub_div_same, ← mul_sub, abs_div, abs_mul, abs_of_nonneg hd0,
      abs_of_pos hmpos]
    have hq' : q ∈ l₁ ++ p :: l₂ := hps ▸ hqk
    have hmix : |sweepF cc d N l₁ y q - sweepF cc d N l₁ x q| =
        (if (keysOf cc).indexOf q < (keysOf cc).indexOf p then |z q - y q|
         else |y q - x q|) := by
      by_cases hql : q ∈ l₁
      · have hq2 : q ∉ p :: l₂ :=
          fun hmem => List.disjoint_of_nodup_append hnd' hql hmem
        have h1 : sweepF cc d N l₁ y q = z q := by
          rw [hz, hps]
          exact (sweepF_prefix_value cc d N l₁ (p :: l₂) y q hq2).symm
        have h2 : sweepF cc d N l₁ x q = y q := by
          rw [hy, hps]
          exact (sweepF_prefix_value cc d N l₁ (p :: l₂) x q hq2).symm
        rw [h1, h2, if_pos (by
          rw [hps]
          exact (mem_prefix_iff_indexOf l₁ l₂ p q hnd' hq').mp hql)]
      · have h1 : sweepF cc d N l₁ y q = y q := sweepF_not_mem cc d N l₁ y q hql
        have h2 : sweepF cc d N l₁ x q = x q := sweepF_not_mem cc d N l₁ x q hql
        rw [h1, h2, if_neg (by
          intro hlt
          rw [hps] at hlt
          exact hql ((mem_prefix_iff_indexOf l₁ l₂ p q hnd' hq').mpr hlt))]
    rw [hmix]
  · simp only [hlink, if_false, sub_zero, abs_zero, le_refl]

/-- Evaluating the inner sum of the global bound for a fixed linking page:
only the counts of its targets before/after it matter. -/
theorem inner_sum_eval (cc : Corpus) (d : ℚ) (q : Page) (Δ2 Δ1 : Page → ℚ) :
    ∑ p ∈ (keysOf cc).toFinset,
      (if p ∈ linksOf cc q then
        d * (if (keysOf cc).indexOf q < (keysOf cc).indexOf p then Δ2 q else Δ1 q) /
          ((linksOf cc q).length : ℚ)
      else 0) =
    (cntA cc q : ℚ) * (d * Δ2 q / ((linksOf cc q).length : ℚ)) +
      (cntB cc q : ℚ) * (d * Δ1 q / ((linksOf cc q).length : ℚ)) := by
  have h1 : ∀ p, (if p ∈ linksOf cc q then
        d * (if (keysOf cc).indexOf q < (keysOf cc).indexOf p then Δ2 q else Δ1 q) /
          ((linksOf cc q).length : ℚ)
      else 0) =
      (if p ∈ linksOf cc q ∧ (keysOf cc).indexOf q < (keysOf cc).indexOf p then
        d * Δ2 q / ((linksOf cc q).length : ℚ) else 0) +
      (if p ∈ linksOf cc q ∧ ¬(keysOf cc).indexOf q < (keysOf cc).indexOf p then
        d * Δ1 q / ((linksOf cc q).length : ℚ) else 0) := by
    intro p
    by_cases hP : p ∈ linksOf cc q
    · by_cases hQ : (keysOf cc).indexOf q < (keysOf cc).indexOf p <;> simp [hP, hQ]
    · simp [hP]
  simp only [h1]
  rw [Finset.sum_add_distrib, ← Finset.sum_filter, ← Finset.sum_filter,
    Finset.sum_const, Finset.sum_const, nsmul_eq_mul, nsmul_eq_mul]
  rfl

/-- A page's targets split into those processed after it and the rest;
together they number at most its out-degree. -/
theorem cntA_add_cntB_le (cc : Corpus) (q : Page) :
    cntA cc q + cntB cc q ≤ (linksOf cc q).length := by
  have hsplit : cntA cc q + cntB cc q =
      ((keysOf cc).toFinset.filter (fun p => p ∈ linksOf cc q)).card := by
    unfold cntA cntB
    rw [← Finset.filter_filter, ← Finset.filter_filter]
    exact Finset.filter_card_add_filter_neg_card_eq_card _
  rw [hsplit]
  calc ((keysOf cc).toFinset.filter (fun p => p ∈ linksOf cc q)).card
      ≤ (linksOf cc q).toFinset.card := by
        refine Finset.card_le_card (fun p hp => ?_)
        exact List.mem_toFinset.mpr (Finset.mem_filter.mp hp).2
    _ ≤ (linksOf cc q).length := (linksOf cc q).toFinset_card_le

/-- The weights of the Lyapunov functional lie in `[1 - d, 1]`. -/
theorem wgt_bounds (cc : Corpus) (d : ℚ) (q : Page)
    (hm : (linksOf cc q).length ≠ 0) (hd0 : 0 ≤ d) (hd1 : d ≤ 1) :
    1 - d ≤ wgt cc d q ∧ wgt cc d q ≤ 1 := by
  have hmpos : (0 : ℚ) < ((linksOf cc q).length : ℚ) := by
    have : 0 < (linksOf cc q).length := Nat.pos_of_ne_zero hm
    exact_mod_cast this
  have hcA : (0 : ℚ) ≤ (cntA cc q : ℚ) := Nat.cast_nonneg _
  have hle : (cntA cc q : ℚ) ≤ ((linksOf cc q).length : ℚ) := by
    have := cntA_add_cntB_le cc q
    have h2 : cntA cc q ≤ (linksOf cc q).length := by omega
    exact_mod_cast h2
  unfold wgt
  constructor
  · have h3 : d * (cntA cc q : ℚ) / ((linksOf cc q).length : ℚ) ≤ d := by
      rw [div_le_iff₀ hmpos]
      have : d * (cntA cc q : ℚ) ≤ d * ((linksOf cc q).length : ℚ) :=
        mul_le_mul_of_nonneg_left hle hd0
      linarith
    linarith
  · have h3 : (0 : ℚ) ≤ d * (cntA cc q : ℚ) / ((linksOf cc q).length : ℚ) :=
      div_nonneg (mul_nonneg hd0 hcA) (le_of_lt hmpos)
    linarith

/-- The weighted total per-page change contracts by the damping factor at
every sweep. -/
theorem lyap_contraction (cc : Corpus) (d : ℚ) (N : ℕ)
    (hnd : (keysOf cc).Nodup)
    (hm : ∀ q ∈ keysOf cc, (linksOf cc q).length ≠ 0)
    (hd0 : 0 ≤ d) (hd1 : d ≤ 1) (x y z : Page → ℚ)
    (hy : y = sweepF cc d N (keysOf cc) x) (hz : z = sweepF cc d N (keysOf cc) y) :
    lyap cc d (fun q => |z q - y q|) ≤ d * lyap cc d (fun q => |y q - x q|) := by
  have hS : ∑ q ∈ (keysOf cc).toFinset, |z q - y q| ≤
      ∑ q ∈ (keysOf cc).toFinset,
        ((cntA cc q : ℚ) * (d * |z q - y q| / ((linksOf cc q).length : ℚ)) +
          (cntB cc q : ℚ) * (d * |y q - x q| / ((linksOf cc q).length : ℚ))) := by
    calc ∑ p ∈ (keysOf cc).toFinset, |z p - y p|
        ≤ ∑ p ∈ (keysOf cc).toFinset, ∑ q ∈ (keysOf cc).toFinset,
            (if p ∈ linksOf cc q then
              d * (if (keysOf cc).indexOf q < (keysOf cc).indexOf p then |z q - y q|
                else |y q - x q|) / ((linksOf cc q).length : ℚ)
            else 0) := by
          refine Finset.sum_le_sum (fun p hp => ?_)
          exact sweep_diff_bound cc d N hnd hm hd0 x y z hy hz p
            (List.mem_toFinset.mp hp)
      _ = ∑ q ∈ (keysOf cc).toFinset, ∑ p ∈ (keysOf cc).toFinset,
            (if p ∈ linksOf cc q then
              d * (if (keysOf cc).indexOf q < (keysOf cc).indexOf p then |z q - y q|
                else |y q - x q|) / ((linksOf cc q).length : ℚ)
            else 0) := Finset.sum_comm
      _ = ∑ q ∈ (keysOf cc).toFinset,
            ((cntA cc q : ℚ) * (d * |z q - y q| / ((linksOf cc q).length : ℚ)) +
              (cntB cc q : ℚ) * (d * |y q - x q| / ((linksOf cc q).length : ℚ))) := by
          refine Finset.sum_congr rfl (fun q _ => ?_)
          exact inner_sum_eval cc d q (fun q => |z q - y q|) (fun q => |y q - x q|)
  have hexpand : lyap cc d (fun q => |z q - y q|) =
      (∑ q ∈ (keysOf cc).toFinset, |z q - y q|) -
        ∑ q ∈ (keysOf cc).toFinset,
          (cntA cc q : ℚ) * (d * |z q - y q| / ((linksOf cc q).length : ℚ)) := by
    unfold lyap wgt
    rw [← Finset.sum_sub_distrib]
    refine Finset.sum_congr rfl (fun q _ => ?_)
    ring
  have hmid : lyap cc d (fun q => |z q - y q|) ≤
      ∑ q ∈ (keysOf cc).toFinset,
        (cntB cc q : ℚ) * (d * |y q - x q| / ((linksOf cc q).length : ℚ)) := by
    rw [hexpand]
    rw [Finset.sum_add_distrib] at hS
    linarith
  refine le_trans hmid ?_
  unfold lyap
  rw [Finset.mul_sum]
  refine Finset.sum_le_sum (fun q hq => ?_)
  have hqk : q ∈ keysOf cc := List.mem_toFinset.mp hq
  have hmq := hm q hqk
  have hmpos : (0 : ℚ) < ((linksOf cc q).length : ℚ) := by
    have : 0 < (linksOf cc q).length := Nat.pos_of_ne_zero hmq
    exact_mod_cast this
  have habs : (0 : ℚ) ≤ |y q - x q| := abs_nonneg _
  have hcnt : (cntA cc q : ℚ) + (cntB cc q : ℚ) ≤ ((linksOf cc q).length : ℚ) := by
    have := cntA_add_cntB_le cc q
    exact_mod_cast this
  have hscalar : (cntB cc q : ℚ) / ((linksOf cc q).length : ℚ) ≤
      1 - d * (cntA cc q : ℚ) / ((linksOf cc q).length : ℚ) := by
    have hdiffnn : (0 : ℚ) ≤ ((linksOf cc q).length : ℚ) - d * (cntA cc q : ℚ) -
        (cntB cc q : ℚ) := by
      have h1 : d * (cntA cc q : ℚ) ≤ (cntA cc q : ℚ) :=
        mul_le_of_le_one_left (Nat.cast_nonneg _) hd1
      linarith
    have heq : 1 - d * (cntA cc q : ℚ) / ((linksOf cc q).length : ℚ) -
        (cntB cc q : ℚ) / ((linksOf cc q).length : ℚ) =
        (((linksOf cc q).length : ℚ) - d * (cntA cc q : ℚ) - (cntB cc q : ℚ)) /
          ((linksOf cc q).length : ℚ) := by
      field_simp
    have : (0 : ℚ) ≤ 1 - d * (cntA cc q : ℚ) / ((linksOf cc q).length : ℚ) -
        (cntB cc q : ℚ) / ((linksOf cc q).length : ℚ) := by
      rw [heq]
      exact div_nonneg hdiffnn (le_of_lt hmpos)
    linarith
  show (cntB cc q : ℚ) * (d * |y q - x q| / ((linksOf cc q).length : ℚ)) ≤
    d * (wgt cc d q * |y q - x q|)
  unfold wgt
  have hrw1 : (cntB cc q : ℚ) * (d * |y q - x q| / ((linksOf cc q).length : ℚ)) =
      d * (((cntB cc q : ℚ) / ((linksOf cc q).length : ℚ)) * |y q - x q|) := by
    field_simp
    ring
  rw [hrw1]
  refine mul_le_mul_of_nonneg_left ?_ hd0
  exact mul_le_mul_of_nonneg_right hscalar habs

/-- The weighted total of a nonnegative quantity is nonnegative. -/
theorem lyap_nonneg (cc : Corpus) (d : ℚ) (δ : Page → ℚ)
    (hm : ∀ q ∈ keysOf cc, (linksOf cc q).length ≠ 0)
    (hd0 : 0 ≤ d) (hd1 : d ≤ 1) (hδ : ∀ q, 0 ≤ δ q) : 0 ≤ lyap cc d δ := by
  unfold lyap
  refine Finset.sum_nonneg (fun q hq => ?_)
  have hqk : q ∈ keysOf cc := List.mem_toFinset.mp hq
  have hw := (wgt_bounds cc d q (hm q hqk) hd0 hd1).1
  have : (0 : ℚ) ≤ wgt cc d q := by linarith
  exact mul_nonneg this (hδ q)

/-- Each component of a nonnegative quantity is bounded by the weighted
total, up to the factor `1 - d`. -/
theorem component_le_lyap (cc : Corpus) (d : ℚ) (δ : Page → ℚ)
    (hm : ∀ q ∈ keysOf cc, (linksOf cc q).length ≠ 0)
    (hd0 : 0 ≤ d) (hd1 : d ≤ 1) (hδ : ∀ q, 0 ≤ δ q)
    (q : Page) (hq : q ∈ keysOf cc) : (1 - d) * δ q ≤ lyap cc d δ := by
  have hterm : (1 - d) * δ q ≤ wgt cc d q * δ q :=
    mul_le_mul_of_nonneg_right (wgt_bounds cc d q (hm q hq) hd0 hd1).1 (hδ q)
  refine le_trans hterm ?_
  unfold lyap
  refine Finset.single_le_sum (f := fun p => wgt cc d p * δ p) (fun p hp => ?_)
    (List.mem_toFinset.mpr hq)
  have hpk : p ∈ keysOf cc := List.mem_toFinset.mp hp
  have hw := (wgt_bounds cc d p (hm p hpk) hd0 hd1).1
  exact mul_nonneg (by linarith) (hδ p)

/-- The weighted per-sweep change decays geometrically. -/
theorem lyap_pow (cc : Corpus) (d : ℚ) (N : ℕ)
    (hnd : (keysOf cc).Nodup)
    (hm : ∀ q ∈ keysOf cc, (linksOf cc q).length ≠ 0)
    (hd0 : 0 ≤ d) (hd1 : d ≤ 1) (σ0 : Page → ℚ) (j : ℕ) :
    lyap cc d (fun q => |sweepsF cc d N σ0 (j + 1) q - sweepsF cc d N σ0 j q|) ≤
      d ^ j * lyap cc d (fun q => |sweepsF cc d N σ0 1 q - sweepsF cc d N σ0 0 q|) := by
  induction j with
  | zero => simp
  | succ j ih =>
      have hstep := lyap_contraction cc d N hnd hm hd0 hd1
        (sweepsF cc d N σ0 j) (sweepsF cc d N σ0 (j + 1)) (sweepsF cc d N σ0 (j + 2))
        rfl rfl
      calc lyap cc d (fun q => |sweepsF cc d N σ0 (j + 2) q - sweepsF cc d N σ0 (j + 1) q|)
          ≤ d * lyap cc d (fun q => |sweepsF cc d N σ0 (j + 1) q - sweepsF cc d N σ0 j q|) :=
            hstep
        _ ≤ d * (d ^ j *
            lyap cc d (fun q => |sweepsF cc d N σ0 1 q - sweepsF cc d N σ0 0 q|)) :=
            mul_le_mul_of_nonneg_left ih hd0
        _ = d ^ (j + 1) *
            lyap cc d (fun q => |sweepsF cc d N σ0 1 q - sweepsF cc d N σ0 0 q|) := by
            ring

/-- From some sweep on, the per-page change is below the tolerance. -/
theorem exists_stop (cc : Corpus) (d : ℚ) (N : ℕ)
    (hnd : (keysOf cc).Nodup)
    (hm : ∀ q ∈ keysOf cc, (linksOf cc q).length ≠ 0)
    (hd0 : 0 < d) (hd1 : d < 1) (σ0 : Page → ℚ) :
    ∃ j, StopAt cc d N (sweepsF cc d N σ0 j) := by
  set V0 := lyap cc d (fun q => |sweepsF cc d N σ0 1 q - sweepsF cc d N σ0 0 q|) with hV0
  have hV0nn : 0 ≤ V0 :=
    lyap_nonneg cc d _ hm (le_of_lt hd0) (le_of_lt hd1) (fun q => abs_nonneg _)
  have hεpos : (0 : ℚ) < ((1 - d) / 1000) / (V0 + 1) := by
    apply div_pos
    · apply div_pos <;> linarith
    · linarith
  obtain ⟨n, hn⟩ := exists_pow_lt_of_lt_one hεpos hd1
  refine ⟨n, ?_⟩
  intro q hq
  have hcomp := component_le_lyap cc d
    (fun p => |sweepsF cc d N σ0 (n + 1) p - sweepsF cc d N σ0 n p|) hm
    (le_of_lt hd0) (le_of_lt hd1) (fun p => abs_nonneg _) q hq
  have hpow := lyap_pow cc d N hnd hm (le_of_lt hd0) (le_of_lt hd1) σ0 n
  have hdn : (0 : ℚ) ≤ d ^ n := pow_nonneg (le_of_lt hd0) n
  have hchain : d ^ n * V0 ≤ d ^ n * (V0 + 1) := by
    refine mul_le_mul_of_nonneg_left (by linarith) hdn
  have hsmall : d ^ n * (V0 + 1) < (1 - d) / 1000 := by
    have := mul_lt_mul_of_pos_right hn (show (0 : ℚ) < V0 + 1 by linarith)
    calc d ^ n * (V0 + 1) < (((1 - d) / 1000) / (V0 + 1)) * (V0 + 1) := this
      _ = (1 - d) / 1000 := by
          field_simp
          ring
  have hbound : (1 - d) * |sweepsF cc d N σ0 (n + 1) q - sweepsF cc d N σ0 n q| <
      (1 - d) / 1000 := by
    calc (1 - d) * |sweepsF cc d N σ0 (n + 1) q - sweepsF cc d N σ0 n q|
        ≤ lyap cc d (fun p => |sweepsF cc d N σ0 (n + 1) p - sweepsF cc d N σ0 n p|) :=
          hcomp
      _ ≤ d ^ n * V0 := hpow
      _ ≤ d ^ n * (V0 + 1) := hchain
      _ < (1 - d) / 1000 := hsmall
  have hd1' : (0 : ℚ) < 1 - d := by linarith
  show |sweepsF cc d N σ0 n q - sweepF cc d N (keysOf cc) (sweepsF cc d N σ0 n) q| ≤ 1 / 1000
  have habs : |sweepsF cc d N σ0 n q - sweepsF cc d N σ0 (n + 1) q| =
      |sweepsF cc d N σ0 (n + 1) q - sweepsF cc d N σ0 n q| := abs_sub_comm _ _
  have : |sweepsF cc d N σ0 (n + 1) q - sweepsF cc d N σ0 n q| ≤ 1 / 1000 := by
    by_contra hcon
    push_neg at hcon
    have := mul_lt_mul_of_pos_left hcon hd1'
    rw [show (1 - d) * (1 / 1000) = (1 - d) / 1000 by ring] at this
    linarith
  calc |sweepsF cc d N σ0 n q - sweepF cc d N (keysOf cc) (sweepsF cc d N σ0 n) q|
      = |sweepsF cc d N σ0 (n + 1) q - sweepsF cc d N σ0 n q| := abs_sub_comm _ _
    _ ≤ 1 / 1000 := this

/-- Peeling a sweep off the front of the iterated-sweep sequence. -/
theorem sweepsF_shift (cc : Corpus) (d : ℚ) (N : ℕ) (σ0 : Page → ℚ) (j : ℕ) :
    sweepsF cc d N σ0 (j + 1) =
      sweepsF cc d N (sweepF cc d N (keysOf cc) σ0) j := by
  induction j with
  | zero => rfl
  | succ j ih =>
      show sweepF cc d N (keysOf cc) (sweepsF cc d N σ0 (j + 1)) =
        sweepF cc d N (keysOf cc) (sweepsF cc d N (sweepF cc d N (keysOf cc) σ0) j)
      rw [ih]

/-- The approximate-equality test succeeds when both dicts carry the same
keys and all value differences are within the tolerance. -/
theorem approx_eq_true_of (d1 d2 : Dist) (tol : ℚ) (K : List Page)
    (hk1 : keysOf d1 = K) (hk2 : keysOf d2 = K)
    (hv : ∀ q ∈ K, |valOf d1 q - valOf d2 q| ≤ tol) :
    are_dicts_approx_equal d1 d2 tol = true := by
  unfold are_dicts_approx_equal
  have hlen : d1.length = d2.length := by
    rw [← keysOf_length d1, ← keysOf_length d2, hk1, hk2]
  rw [if_neg (by simp [hlen])]
  rw [List.all_eq_true]
  intro e he
  have hek : e.1 ∈ K := hk1 ▸ List.mem_map_of_mem Prod.fst he
  rw [Bool.and_eq_true, decide_eq_true_eq, decide_eq_true_eq]
  exact ⟨by rw [hk2]; exact hek, hv e.1 hek⟩

/-- If the stopping condition holds after some sweep within the fuel
budget, the loop returns a value. -/
theorem iterLoop_reaches (cc : Corpus) (d : ℚ) (N : ℕ) (hnd : (keysOf cc).Nodup) :
    ∀ (k : ℕ) (old cur : Dist),
      keysOf old = keysOf cc → keysOf cur = keysOf cc →
      (∃ j, j < k ∧ StopAt cc d N (sweepsF cc d N (valOf cur) j)) →
      (iterLoop cc d N k (old, cur)).isSome = true := by
  intro k
  induction k with
  | zero =>
      intro old cur h1 h2 h3
      obtain ⟨j, hj, _⟩ := h3
      exact absurd hj (Nat.not_lt_zero j)
  | succ k ih =>
      intro old cur hk1 hk2 h3
      obtain ⟨j, hjk, hstop⟩ := h3
      rw [iterLoop]
      have hkeys := foldl_sweepStep_keys cc d N (keysOf cc) (old, cur)
        (fun p hp => hk1 ▸ hp) (fun p hp => hk2 ▸ hp)
      have hv2 : valOf (sweep cc d N (old, cur)).2 =
          sweepF cc d N (keysOf cc) (valOf cur) :=
        funext (foldl_sweepStep_valOf cc d N (keysOf cc) (old, cur))
      have hv1 : ∀ q, valOf (sweep cc d N (old, cur)).1 q =
          if q ∈ keysOf cc then valOf cur q else valOf old q :=
        foldl_sweepStep_old_valOf cc d N (keysOf cc) hnd (old, cur)
      by_cases hc : are_dicts_approx_equal (sweep cc d N (old, cur)).1
          (sweep cc d N (old, cur)).2 (1 / 1000) = true
      · rw [if_pos hc]
        rfl
      · rw [if_neg hc]
        have hj0 : j ≠ 0 := by
          intro h0
          apply hc
          subst h0
          refine approx_eq_true_of (sweep cc d N (old, cur)).1
            (sweep cc d N (old, cur)).2 (1 / 1000)
            (keysOf cc) (hkeys.1.trans hk1) (hkeys.2.trans hk2) ?_
          intro q hq
          rw [hv1 q, if_pos hq, hv2]
          exact hstop q hq
        obtain ⟨j', rfl⟩ := Nat.exists_eq_succ_of_ne_zero hj0
        have hnext := ih (sweep cc d N (old, cur)).1 (sweep cc d N (old, cur)).2
          (hkeys.1.trans hk1) (hkeys.2.trans hk2)
          ⟨j', by omega, by
            rw [hv2, ← sweepsF_shift]
            exact hstop⟩
        exact hnext

/-- `iterate_pagerank` unfolded to its convergence loop. -/
theorem iterate_pagerank_eq (corpus : Corpus) (d : ℚ) (fuel : ℕ) :
    iterate_pagerank corpus d fuel =
      iterLoop (dangling_fix corpus) d corpus.length fuel
        (corpus.map (fun e => (e.1, 1 / ((corpus.length : ℕ) : ℚ))),
         corpus.map (fun e => (e.1, 1 / ((corpus.length : ℕ) : ℚ)))) := rfl

/-- Claim C8: on every finite non-empty graph (keys duplicate-free, as
Python dict keys are) with damping factor in `(0, 1)`, `iterate_pagerank`
terminates: some finite fuel suffices for the tolerance check to stop the
loop. -/
theorem c8_iterate_pagerank_terminates (corpus : Corpus) (d : ℚ)
    (hc : corpus ≠ []) (hnd : (keysOf corpus).Nodup)
    (hd0 : 0 < d) (hd1 : d < 1) :
    ∃ fuel, (iterate_pagerank corpus d fuel).isSome = true := by
  have hkeq : keysOf (dangling_fix corpus) = keysOf corpus := keysOf_dangling_fix corpus
  have hnd' : (keysOf (dangling_fix corpus)).Nodup := hkeq ▸ hnd
  have hm : ∀ q ∈ keysOf (dangling_fix corpus),
      (linksOf (dangling_fix corpus) q).length ≠ 0 := by
    intro q hq
    have := linksOf_dangling_fix_ne_nil corpus hc q (hkeq ▸ hq)
    simpa [List.length_eq_zero] using this
  set A : Dist := corpus.map (fun e => (e.1, 1 / ((corpus.length : ℕ) : ℚ))) with hA
  have hkinit : keysOf A = keysOf (dangling_fix corpus) := by
    rw [hA, keysOf_map_keyFun corpus (fun _ => 1 / ((corpus.length : ℕ) : ℚ)), hkeq]
  obtain ⟨j, hstop⟩ := exists_stop (dangling_fix corpus) d corpus.length hnd' hm hd0 hd1
    (valOf A)
  refine ⟨j + 1, ?_⟩
  rw [iterate_pagerank_eq]
  have hrun := iterLoop_reaches (dangling_fix corpus) d corpus.length hnd' (j + 1)
    A A hkinit hkinit ⟨j, by omega, hstop⟩
  exact hrun

section ConcreteC8Witness

/-- Witness for C8: the two-page corpus with damping `0.85` satisfies all
the hypotheses, so the loop terminates on it. -/
theorem c8_witness :
    (twoG ≠ [] ∧ (keysOf twoG).Nodup ∧ (0 : ℚ) < 17 / 20 ∧ (17 / 20 : ℚ) < 1) ∧
      ∃ fuel, (iterate_pagerank twoG (17 / 20) fuel).isSome = true :=
  ⟨⟨by decide, by decide, by norm_num, by norm_num⟩,
    c8_iterate_pagerank_terminates twoG (17 / 20) (by decide) (by decide)
      (by norm_num) (by norm_num)⟩

end ConcreteC8Witness
